import Mathlib

/-!
The phcc library: partially homomorphic ciphers and the ledger.

A shallow embedding of `paillier/paillier.go`, `elgamal/elgamal.go` and `algebra.go`.

* `*big.Int` values are `Int`; byte strings are `List (Fin 256)`.  A call is modelled on the
  values its arguments hold, each argument being an integer of its own; what a call writes
  back into an argument is not part of its result.  Key generation, which overwrites its
  arguments, is modelled a second time on a store of cells (`paillier.cells`).
* A Go call that can return a non-nil `error`, panic, or end the process through
  `log.Fatal` returns `Except Fault _`.
* A `math/big` method whose result can be the nil pointer returns `Option Int`.
* `io.Reader` random sources are the list of samples `rand.Int` will hand out; the
  exhausted list is a failing reader.
* `crypto/rsa` (OAEP) and `encoding/gob` are collaborators outside the repository and are
  carried as records of functions with the laws they are assumed to obey.
-/

/-- How a call can fail: it returns a non-nil `error`, it panics, or it ends the process
through `log.Fatal`. -/
inductive Fault where
  | error (msg : String)
  | panic
  | fatal
deriving DecidableEq, Repr

/-! ## math/big -/

namespace big

/-- Go `z.Mod(x, y)`: Euclidean modulus, result in `[0, |y|)`; division by zero panics. -/
def Mod (x y : Int) : Except Fault Int :=
  if y = 0 then .error .panic else .ok (x % y)

/-- Go `z.Div(x, y)`: Euclidean quotient; division by zero panics. -/
def Div (x y : Int) : Except Fault Int :=
  if y = 0 then .error .panic else .ok (x / y)

/-- Go `z.ModInverse(g, n)`: the inverse of `g` in `ℤ/nℤ`, taken in `[0, |n|)` from the Bézout
coefficient of `g`; `none` is the nil result (receiver unchanged) returned when `g` and `n`
are not relatively prime. -/
def ModInverse (g n : Int) : Option Int :=
  if Int.gcd g n = 1 then some (Int.gcdA g n % |n|) else none

/-- Go `z.Exp(x, y, m)`: `x ^ y mod |m|`; for `m = 0` it is `x ^ y`, or `1` when `y ≤ 0`; for
`y < 0` and `m ≠ 0` the base is first inverted modulo `m`, and `none` is the nil result
returned when that inverse does not exist. -/
def Exp (x y m : Int) : Option Int :=
  if y < 0 then
    if m = 0 then some 1
    else
      match ModInverse x m with
      | none => none
      | some inverse => some (inverse ^ y.natAbs % |m|)
  else if m = 0 then some (x ^ y.toNat)
  else some (x ^ y.toNat % |m|)

/-- Go `z.SetBytes(buf)`: the bytes read as a big-endian unsigned integer. -/
def SetBytes (buf : List (Fin 256)) : Int :=
  buf.foldl (fun acc b => acc * 256 + (b.val : Int)) 0

/-- Go `x.Bytes()`: the absolute value of `x` as a big-endian byte string without leading
zero bytes (empty for `0`). -/
def Bytes (x : Int) : List (Fin 256) :=
  ((Nat.digits 256 x.natAbs).map (fun d => Fin.ofNat d)).reverse

/-- Value of one base-16 digit; letters count in either case. -/
def hexDigitValue (c : Char) : Option Nat :=
  if 48 ≤ c.toNat ∧ c.toNat ≤ 57 then some (c.toNat - 48)
  else if 97 ≤ c.toNat ∧ c.toNat ≤ 102 then some (c.toNat - 87)
  else if 65 ≤ c.toNat ∧ c.toNat ≤ 70 then some (c.toNat - 55)
  else none

/-- Reads a run of base-16 digits onto the accumulator; any other character fails. -/
def scanHex : List Char → Nat → Option Nat
  | [], acc => some acc
  | c :: cs, acc =>
    match hexDigitValue c with
    | none => none
    | some d => scanHex cs (acc * 16 + d)

/-- Go `z.SetString(s, 16)`: an optional sign followed by at least one base-16 digit, the whole
string being consumed; `none` is the `ok = false` result. -/
def SetString16 (s : String) : Option Int :=
  match s.toList with
  | [] => none
  | c :: cs =>
    if c = '-' then
      if cs = [] then none else (scanHex cs 0).map (fun n => -(n : Int))
    else if c = '+' then
      if cs = [] then none else (scanHex cs 0).map (fun n => (n : Int))
    else (scanHex (c :: cs) 0).map (fun n => (n : Int))

end big

/-- Go `rand.Int(random, max)` of `crypto/rand`: panics when `max ≤ 0`, fails with the reader's
error when the source is exhausted, and otherwise hands out the next sample together with
the rest of the source.  That a sample lies in `[0, max)` is a property of the source. -/
def cryptoRandInt (random : List Int) (max : Int) : Except Fault (Int × List Int) :=
  if max ≤ 0 then .error .panic
  else
    match random with
    | [] => .error (.error "EOF")
    | k :: rest => .ok (k, rest)

/-! ## paillier/paillier.go -/

namespace paillier

structure PublicKey where
  N : Int
deriving DecidableEq, Repr

structure PrivateKey extends PublicKey where
  Lambda : Int
deriving DecidableEq, Repr

def ZERO : Int := 0

def ONE : Int := 1

def NEG_ONE : Int := -1

def minusOne (x : Int) : Int :=
  x + NEG_ONE

def computePhi (p q : Int) : Int :=
  minusOne p * minusOne q

/-- Go `CreatePrivateKey(p, q)` on the values held by its two arguments. -/
def CreatePrivateKey (p q : Int) : PrivateKey :=
  let n := p * q
  let lambda := computePhi p q
  { N := n, Lambda := lambda }

def PublicKey.getNSquare (pub : PublicKey) : Int :=
  pub.N * pub.N

/-- The text of the range error of `encryptWithR` (`%v` prints a `*big.Int` in decimal). -/
def plaintextSpaceError (m n : Int) : String :=
  toString m ++ " is out of allowed plaintext space [0, " ++ toString n ++ ")"

def PublicKey.encryptWithR (pub : PublicKey) (m r : Int) : Except Fault Int :=
  if m < ZERO ∨ ¬ (m < pub.N) then
    .error (.error (plaintextSpaceError m pub.N))
  else
    let nSquare := pub.getNSquare
    let g := pub.N + ONE
    match big.Exp g m nSquare, big.Exp r pub.N nSquare with
    | some gm, some rn => big.Mod (rn * gm) nSquare
    | _, _ => .error .panic

/-- Go `GetRandomNumberInMultiplicativeGroup(n, random)`: draws until a sample is non-zero and
coprime to `n`. -/
def GetRandomNumberInMultiplicativeGroup (n : Int) : List Int → Except Fault Int
  | [] => if n ≤ 0 then .error .panic else .error (.error "EOF")
  | r :: rest =>
    if n ≤ 0 then .error .panic
    else if ZERO = r ∨ ONE ≠ (Int.gcd n r : Int) then
      GetRandomNumberInMultiplicativeGroup n rest
    else .ok r

def PublicKey.Encrypt (pub : PublicKey) (random : List Int) (m : Int) : Except Fault Int :=
  match GetRandomNumberInMultiplicativeGroup pub.N random with
  | .error err => .error err
  | .ok r => pub.encryptWithR m r

def PublicKey.Add (pub : PublicKey) (ciphertexts : List Int) : Except Fault Int :=
  ciphertexts.foldlM (fun accumulator c => big.Mod (accumulator * c) pub.getNSquare) ONE

/-- Go `Mul(c, scalar)`; `none` is the nil pointer that `Exp` hands back. -/
def PublicKey.Mul (pub : PublicKey) (c scalar : Int) : Option Int :=
  big.Exp c scalar pub.getNSquare

def L (u n : Int) : Except Fault Int :=
  let t := u + NEG_ONE
  big.Div t n

/-- Go `Decrypt(c)`; a nil `mu` or `tmp` is dereferenced by the arithmetic that follows. -/
def PrivateKey.Decrypt (priv : PrivateKey) (c : Int) : Except Fault Int :=
  match big.ModInverse priv.Lambda priv.N,
        big.Exp c priv.Lambda priv.toPublicKey.getNSquare with
  | some mu, some tmp =>
    match L tmp priv.N with
    | .error err => .error err
    | .ok l => big.Mod (l * mu) priv.N
  | _, _ => .error .panic

end paillier

/-! ## elgamal/elgamal.go -/

namespace elgamal

structure PublicKey where
  G : Int
  P : Int
  Y : Int
deriving DecidableEq, Repr

structure PrivateKey extends PublicKey where
  X : Int
deriving DecidableEq, Repr

structure Ciphertext where
  C1 : Int
  C2 : Int
deriving DecidableEq, Repr

def PublicKey.Encrypt (pub : PublicKey) (random : List Int) (msg : List (Fin 256)) :
    Except Fault Ciphertext :=
  let m := big.SetBytes msg
  match cryptoRandInt random pub.P with
  | .error err => .error err
  | .ok (k, _) =>
    match big.Exp pub.G k pub.P, big.Exp pub.Y k pub.P with
    | some c1, some s =>
      match big.Mod (s * m) pub.P with
      | .error err => .error err
      | .ok c2 => .ok { C1 := c1, C2 := c2 }
    | _, _ => .error .panic

/-- Go `Decrypt(c)`: the result of `ModInverse` is not inspected, so when there is no inverse
`s` keeps its value; the returned error is always nil. -/
def PrivateKey.Decrypt (priv : PrivateKey) (c : Ciphertext) : Except Fault (List (Fin 256)) :=
  match big.Exp c.C1 priv.X priv.P with
  | none => .error .panic
  | some s =>
    let s := (big.ModInverse s priv.P).getD s
    let s := s * c.C2
    match big.Mod s priv.P with
    | .error err => .error err
    | .ok s => .ok (big.Bytes s)

def HexToBigInt (hex : String) : Except Fault Int :=
  match big.SetString16 hex with
  | some n => .ok n
  | none => .error .panic

end elgamal

/-! ## crypto/rsa and encoding/gob, the collaborators of the ledger -/

namespace rsa

/-- An RSA public key, seen through `rsa.EncryptOAEP(sha256.New(), rand.Reader, pub, msg, nil)`;
`seed` stands for what the call reads from `rand.Reader`, `none` for a non-nil error. -/
structure PublicKey where
  EncryptOAEP : Nat → List (Fin 256) → Option (List (Fin 256))

/-- An RSA private key with its public half, seen through `rsa.DecryptOAEP`. -/
structure PrivateKey extends PublicKey where
  DecryptOAEP : List (Fin 256) → Option (List (Fin 256))

/-- The laws of a 2048-bit key with SHA-256: a message of more than `256 - 2 * 32 - 2 = 190`
bytes is refused, a shorter one is encrypted to 256 bytes that decrypt to it. -/
structure PrivateKey.Valid (priv : PrivateKey) : Prop where
  too_long : ∀ seed msg, 190 < msg.length → priv.EncryptOAEP seed msg = none
  round_trip : ∀ seed msg, msg.length ≤ 190 →
    ∃ c, priv.EncryptOAEP seed msg = some c ∧ c.length = 256 ∧ priv.DecryptOAEP c = some msg

end rsa

namespace gob

/-- A `gob` encoder and decoder for values of one type. -/
structure Codec (α : Type) where
  Encode : α → List (Fin 256)
  Decode : List (Fin 256) → Option α

/-- Decoding what was encoded gives the value back. -/
def Codec.Valid {α : Type} (codec : Codec α) : Prop :=
  ∀ x, codec.Decode (codec.Encode x) = some x

end gob

/-! ## algebra.go -/

namespace phcc

structure LedgerKeys where
  chainKeyPriv : rsa.PrivateKey
  mulKeyPriv : elgamal.PrivateKey
  addKeyPriv : paillier.PrivateKey

structure Ledger where
  chainKeyPub : rsa.PublicKey
  mulKeyPub : elgamal.PublicKey
  addKeyPub : paillier.PublicKey
  operations : List (Fin 256)
  ciphertext : List (Fin 256)

def ADD_OP : String := "Add"

def MUL_OP : String := "Multiply"

def DIVIDER : String := "|"

def primeHex : String :=
  "B10B8F96A080E01DDE92DE5EAE5D54EC52C99FBCFB06A3C69A6A9DCA52D23B616073E28675A23D189838EF1E2EE652C013ECB4AEA906112324975C3CD49B83BFACCBDD7D90C4BD7098488E9C219A73724EFFD6FAE5644738FAA31A4FF55BCCC0A151AF5F0DC8B4BD45BF37DF365C1A65E68CFDA76D4DA708DF1FB2BC2E4A4371"

def generatorHex : String :=
  "A4D1CBD5C3FD34126765A442EFB99905F8104DD258AC507FD6406CFF14266D31266FEA1E5C41564B777E690F5504F213160217B4B01B886A5E91547F9E2749F4D7FBD7D3B9A92EE1909D0D2263F80A76A6A24C087A091F531DBF0A0169B6A28AD662A4D18E73AFA32D779D5918D08BC8858F4DCEF97C2A24855E6EEB22B3B2E5"

/-- Conversion `[]byte(s)` for the ASCII constants of this file. -/
def bytesOf (s : String) : List (Fin 256) :=
  s.toList.map (fun c => Fin.ofNat c.toNat)

/-- Go `NewLedger()`; `rsaPriv` is what `rsa.GenerateKey(rand.Reader, 2048)` returned. -/
def NewLedger (rsaPriv : Except String rsa.PrivateKey) : Except Fault (LedgerKeys × Ledger) :=
  match rsaPriv with
  | .error _ => .error .fatal
  | .ok rsaPriv =>
    match elgamal.HexToBigInt generatorHex, elgamal.HexToBigInt "71",
          elgamal.HexToBigInt "42" with
    | .ok g, .ok p, .ok x =>
      match big.Exp g x p with
      | none => .error .panic
      | some y =>
        let elPriv : elgamal.PrivateKey := { G := g, P := p, Y := y, X := x }
        let paillierPriv := paillier.CreatePrivateKey 17 13
        let ledgerKeys : LedgerKeys :=
          { chainKeyPriv := rsaPriv, mulKeyPriv := elPriv, addKeyPriv := paillierPriv }
        let ledger : Ledger :=
          { chainKeyPub := rsaPriv.toPublicKey
            mulKeyPub := elPriv.toPublicKey
            addKeyPub := paillierPriv.toPublicKey
            operations := []
            ciphertext := [] }
        .ok (ledgerKeys, ledger)
    | _, _, _ => .error .panic

/-- Go `ledger.Multiply(cipher1, cipher2)`: the ledger after the call, or how the call ended. -/
def Ledger.Multiply (enc : gob.Codec elgamal.Ciphertext) (seed : Nat) (ledger : Ledger)
    (cipher1 cipher2 : elgamal.Ciphertext) : Except Fault Ledger :=
  match big.Mod (cipher1.C1 * cipher2.C1) ledger.mulKeyPub.P with
  | .error err => .error err
  | .ok c1 =>
    match big.Mod (cipher1.C2 * cipher2.C2) ledger.mulKeyPub.P with
    | .error err => .error err
    | .ok c2 =>
      let input := ledger.operations ++ bytesOf DIVIDER
      let input := input ++ bytesOf MUL_OP
      match ledger.chainKeyPub.EncryptOAEP seed input with
      | none => .error .fatal
      | some updatedOperations =>
        let cipher3 : elgamal.Ciphertext := { C1 := c1, C2 := c2 }
        let encoded := enc.Encode cipher3
        .ok { ledger with ciphertext := encoded, operations := updatedOperations }

/-- Go `ledger.Add(c1, c2)`: the ledger after the call, or how the call ended. -/
def Ledger.Add (enc : gob.Codec Int) (seed : Nat) (ledger : Ledger) (c1 c2 : Int) :
    Except Fault Ledger :=
  let input := ledger.operations ++ bytesOf DIVIDER
  let input := input ++ bytesOf ADD_OP
  match ledger.chainKeyPub.EncryptOAEP seed input with
  | none => .error .fatal
  | some updatedOperations =>
    match ledger.addKeyPub.Add [c1, c2] with
    | .error err => .error err
    | .ok c3 =>
      let encoded := enc.Encode c3
      .ok { ledger with ciphertext := encoded, operations := updatedOperations }

end phcc

/-! ## Concrete collaborators

The laws asked of the collaborators can be met: the key and the codecs below meet them, and
serve as the collaborators of the concrete runs. -/

namespace rsa

/-- A key that keeps a message of at most 190 bytes behind one length byte and fills the
block up to 256 bytes with zero bytes. -/
def paddingKey : PrivateKey where
  EncryptOAEP := fun _ msg =>
    if msg.length ≤ 190 then
      some (Fin.ofNat msg.length :: (msg ++ List.replicate (255 - msg.length) 0))
    else none
  DecryptOAEP := fun c =>
    match c with
    | [] => none
    | len :: body => some (body.take len.val)

end rsa

namespace gob

/-- A codec from a numbering of the values: the number of a value, written out in bytes. -/
def numberingCodec (α : Type) [Encodable α] : Codec α where
  Encode := fun x => big.Bytes (Encodable.encode x)
  Decode := fun buf => Encodable.decode (big.SetBytes buf).toNat

end gob

instance : Encodable elgamal.Ciphertext :=
  Encodable.ofEquiv (ℤ × ℤ)
    { toFun := fun c => (c.C1, c.C2)
      invFun := fun x => { C1 := x.1, C2 := x.2 }
      left_inv := fun _ => rfl
      right_inv := fun _ => rfl }

/-! ## Key generation on mutable cells

In `CreatePrivateKey` the arguments are pointers and `minusOne` and `computePhi` write through
them.  Here a `*big.Int` is the address of a cell of a store, and every function hands back the
store it leaves behind. -/

namespace paillier.cells

/-- A store of `big.Int` cells: the integer held at every address, and the first address that
no allocation has handed out yet. -/
structure Store where
  cell : Nat → Int
  next : Nat

/-- Go `big.NewInt(v)`: a cell that was not in use before, holding `v`. -/
def Store.alloc (s : Store) (v : Int) : Store × Nat :=
  ({ cell := Function.update s.cell s.next v, next := s.next + 1 }, s.next)

/-- The store after the cell at `z` is overwritten with `v`. -/
def Store.set (s : Store) (z : Nat) (v : Int) : Store :=
  { s with cell := Function.update s.cell z v }

/-- Go `NEG_ONE()`: a new cell holding `-1`. -/
def NEG_ONE (s : Store) : Store × Nat :=
  s.alloc (-1)

/-- Go `minusOne(x)`, that is `x.Add(x, NEG_ONE())`: the sum is written into `x` itself and
`x` is returned. -/
def minusOne (s : Store) (x : Nat) : Store × Nat :=
  let (s1, negOne) := NEG_ONE s
  (s1.set x (s1.cell x + s1.cell negOne), x)

/-- Go `computePhi(p, q)`, that is `q.Mul(minusOne(p), minusOne(q))`: both arguments are
decremented in place, left to right, then the product of what the two returned pointers hold
is written into `q`, and `q` is returned. -/
def computePhi (s : Store) (p q : Nat) : Store × Nat :=
  let (s1, a) := minusOne s p
  let (s2, b) := minusOne s1 q
  (s2.set q (s2.cell a * s2.cell b), q)

/-- A Paillier private key as the Go struct holds it: two pointers. -/
structure PrivateKey where
  N : Nat
  Lambda : Nat
deriving DecidableEq, Repr

/-- Go `CreatePrivateKey(p, q)`: `n` is a new cell filled with the product of the arguments,
then `computePhi(p, q)` runs, and the key points at `n` and at what `computePhi` returned. -/
def CreatePrivateKey (s : Store) (p q : Nat) : Store × PrivateKey :=
  let (s1, n) := s.alloc 0
  let s2 := s1.set n (s1.cell p * s1.cell q)
  let (s3, lambda) := computePhi s2 p q
  (s3, { N := n, Lambda := lambda })

end paillier.cells

/-! ## Number theory behind the two schemes -/

theorem intCast_pow_totient (n : ℕ) (R : ℤ) (h : IsCoprime R (n : ℤ)) :
    R ^ n.totient ≡ 1 [ZMOD (n : ℤ)] := by
  obtain ⟨a, b, hab⟩ := h
  have h1 : ((a : ZMod n)) * (R : ZMod n) = 1 := by
    have := congrArg (fun z : ℤ => (z : ZMod n)) hab
    simpa using this
  let u : (ZMod n)ˣ := Units.mkOfMulEqOne (R : ZMod n) (a : ZMod n) (by rw [mul_comm]; exact h1)
  have hu : (u : ZMod n) ^ n.totient = 1 := by
    rw [← Units.val_pow_eq_pow_val, ZMod.pow_totient, Units.val_one]
  have hu2 : ((R ^ n.totient : ℤ) : ZMod n) = ((1 : ℤ) : ZMod n) := by
    push_cast
    exact hu
  exact (ZMod.intCast_eq_intCast_iff _ _ _).1 hu2

theorem totient_sq_of_primes {p q : ℕ} (hp : p.Prime) (hq : q.Prime) (hpq : p ≠ q) :
    (p * q * (p * q)).totient = p * q * ((p - 1) * (q - 1)) := by
  have hc : Nat.Coprime (p ^ 2) (q ^ 2) :=
    Nat.Coprime.pow 2 2 ((Nat.coprime_primes hp hq).2 hpq)
  have : p * q * (p * q) = p ^ 2 * q ^ 2 := by ring
  rw [this, Nat.totient_mul hc, Nat.totient_prime_pow hp (by norm_num),
    Nat.totient_prime_pow hq (by norm_num)]
  simp only [Nat.add_one_sub_one, pow_one, Nat.reduceSubDiff]
  ring

theorem one_add_pow_modEq (N : ℤ) (k : ℕ) :
    (N + 1) ^ k ≡ 1 + k * N [ZMOD (N * N)] := by
  induction k with
  | zero => simp
  | succ k ih =>
    have h1 : (N + 1) ^ (k + 1) ≡ (1 + k * N) * (N + 1) [ZMOD (N * N)] := by
      rw [pow_succ]
      exact ih.mul_right _
    refine h1.trans ?_
    rw [Int.modEq_iff_dvd]
    refine ⟨-(k : ℤ), ?_⟩
    push_cast
    ring

namespace big

theorem Exp_of_nonneg {x y m : Int} (hy : 0 ≤ y) (hm : m ≠ 0) :
    Exp x y m = some (x ^ y.toNat % |m|) := by
  simp [Exp, not_lt.2 hy, hm]

theorem ModInverse_of_gcd {g n : Int} (h : Int.gcd g n = 1) :
    ∃ mu, ModInverse g n = some mu ∧ g * mu ≡ 1 [ZMOD n] := by
  refine ⟨Int.gcdA g n % |n|, by simp [ModInverse, h], ?_⟩
  have hb := Int.gcd_eq_gcd_ab g n
  rw [h] at hb
  have h1 : Int.gcdA g n % |n| ≡ Int.gcdA g n [ZMOD n] := by
    rw [Int.emod_abs]
    exact Int.mod_modEq _ _
  refine (h1.mul_left g).trans ?_
  rw [Int.modEq_iff_dvd]
  refine ⟨Int.gcdB g n, ?_⟩
  push_cast at hb
  linarith

end big

namespace paillier

/-- Decryption of any `c` of the shape `(n + 1) ^ M * R ^ n` modulo `n²`, where `R` to the
power `n * lam` is `1` modulo `n²` and `lam` is invertible modulo `n`, gives `M mod n`. -/
theorem decrypt_of_shape (n lam : ℕ) (hn : 2 ≤ n) (hg : Int.gcd (lam : ℤ) (n : ℤ) = 1)
    (M : ℕ) (c R : ℤ)
    (hc : c ≡ ((n : ℤ) + 1) ^ M * R ^ n [ZMOD ((n : ℤ) * n)])
    (hR : R ^ (n * lam) ≡ 1 [ZMOD ((n : ℤ) * n)]) :
    PrivateKey.Decrypt { N := (n : ℤ), Lambda := (lam : ℤ) } c = .ok ((M : ℤ) % n) := by
  obtain ⟨mu, hmu, hmu1⟩ := big.ModInverse_of_gcd hg
  have hn0 : (n : ℤ) ≠ 0 := by positivity
  have hnn0 : (n : ℤ) * n ≠ 0 := mul_ne_zero hn0 hn0
  have hn2 : (2 : ℤ) ≤ n := by exact_mod_cast hn
  -- the value of `c ^ lam` modulo `n²`
  set x : ℤ := ((M : ℤ) * lam) % n with hx
  have hx0 : 0 ≤ x := Int.emod_nonneg _ hn0
  have hx1 : x < n := Int.emod_lt_of_pos _ (by linarith)
  have h1 : c ^ lam ≡ 1 + x * n [ZMOD ((n : ℤ) * n)] := by
    have e1 : c ^ lam ≡ (((n : ℤ) + 1) ^ M * R ^ n) ^ lam [ZMOD ((n : ℤ) * n)] := hc.pow lam
    have e2 : (((n : ℤ) + 1) ^ M * R ^ n) ^ lam = ((n : ℤ) + 1) ^ (M * lam) * R ^ (n * lam) := by
      rw [mul_pow, ← pow_mul, ← pow_mul]
    have e3 : ((n : ℤ) + 1) ^ (M * lam) * R ^ (n * lam)
        ≡ (1 + ((M * lam : ℕ) : ℤ) * n) * 1 [ZMOD ((n : ℤ) * n)] :=
      (one_add_pow_modEq (n : ℤ) (M * lam)).mul hR
    rw [e2] at e1
    refine (e1.trans e3).trans ?_
    rw [Int.modEq_iff_dvd]
    refine ⟨-(((M : ℤ) * lam) / n), ?_⟩
    have := Int.emod_add_ediv ((M : ℤ) * lam) n
    push_cast
    rw [hx]
    linear_combination (n : ℤ) * this
  have h2 : c ^ lam % ((n : ℤ) * n) = 1 + x * n := by
    rw [h1.eq]
    apply Int.emod_eq_of_lt
    · nlinarith
    · nlinarith
  have h3 : (x * mu) % n = (M : ℤ) % n := by
    have a1 : x ≡ (M : ℤ) * lam [ZMOD n] := Int.mod_modEq _ _
    have a2 : x * mu ≡ (M : ℤ) * (lam * mu) [ZMOD n] := by
      rw [← mul_assoc]
      exact a1.mul_right mu
    have a3 : (M : ℤ) * (lam * mu) ≡ (M : ℤ) * 1 [ZMOD n] := hmu1.mul_left _
    have := a2.trans a3
    rw [mul_one] at this
    exact this
  simp only [PrivateKey.Decrypt, hmu, PublicKey.getNSquare,
    big.Exp_of_nonneg (Int.natCast_nonneg lam) hnn0, Int.toNat_ofNat, L, big.Div, big.Mod, hn0,
    if_false, NEG_ONE]
  rw [abs_of_nonneg (by positivity), h2]
  have : (1 + x * n + -1) / (n : ℤ) = x := by
    rw [show 1 + x * (n : ℤ) + -1 = x * n by ring]
    exact Int.mul_ediv_cancel _ hn0
  rw [this, h3]

end paillier

namespace paillier

theorem CreatePrivateKey_natCast (p q : ℕ) (hp : 1 ≤ p) (hq : 1 ≤ q) :
    CreatePrivateKey (p : ℤ) (q : ℤ)
      = { N := ((p * q : ℕ) : ℤ), Lambda := (((p - 1) * (q - 1) : ℕ) : ℤ) } := by
  simp only [CreatePrivateKey, computePhi, minusOne, NEG_ONE]
  push_cast [Nat.cast_sub hp, Nat.cast_sub hq]
  rfl

theorem pow_modEq_one_of_primes {p q : ℕ} (hp : p.Prime) (hq : q.Prime) (hpq : p ≠ q)
    (R : ℤ) (hR : Int.gcd R ((p * q : ℕ) : ℤ) = 1) :
    R ^ (p * q * ((p - 1) * (q - 1))) ≡ 1 [ZMOD (((p * q : ℕ) : ℤ) * ((p * q : ℕ) : ℤ))] := by
  have hco : IsCoprime R ((p * q : ℕ) : ℤ) := Int.gcd_eq_one_iff_coprime.1 hR
  have hco2 : IsCoprime R ((p * q * (p * q) : ℕ) : ℤ) := by
    rw [Nat.cast_mul (p * q) (p * q)]
    exact hco.mul_right hco
  have := intCast_pow_totient (p * q * (p * q)) R hco2
  rw [totient_sq_of_primes hp hq hpq, Nat.cast_mul (p * q) (p * q)] at this
  exact this

theorem encryptWithR_ok (n : ℕ) (hn : 1 ≤ n) (m r : ℤ) (hm0 : 0 ≤ m) (hm1 : m < n) :
    ∃ c, PublicKey.encryptWithR { N := (n : ℤ) } m r = .ok c ∧
      c ≡ ((n : ℤ) + 1) ^ m.toNat * r ^ n [ZMOD ((n : ℤ) * n)] ∧ 0 ≤ c ∧ c < (n : ℤ) * n := by
  have hn0 : (n : ℤ) ≠ 0 := by positivity
  have hnn0 : (n : ℤ) * n ≠ 0 := mul_ne_zero hn0 hn0
  have hnn : (0 : ℤ) < (n : ℤ) * n := by positivity
  refine ⟨(r ^ n % ((n : ℤ) * n)) * (((n : ℤ) + 1) ^ m.toNat % ((n : ℤ) * n)) % ((n : ℤ) * n),
    ?_, ?_, Int.emod_nonneg _ hnn0, Int.emod_lt_of_pos _ hnn⟩
  · simp only [PublicKey.encryptWithR, ZERO, ONE, PublicKey.getNSquare, not_lt.2 hm0, hm1,
      not_true_eq_false, or_self, if_false, big.Exp_of_nonneg hm0 hnn0,
      big.Exp_of_nonneg (Int.natCast_nonneg n) hnn0, Int.toNat_ofNat, big.Mod, hnn0,
      abs_of_pos hnn]
  · refine (Int.mod_modEq _ _).trans ?_
    rw [mul_comm (((n : ℤ) + 1) ^ m.toNat) (r ^ n)]
    exact (Int.mod_modEq _ _).mul (Int.mod_modEq _ _)

/-- What `Add` folds to: for a non-zero modulus the accumulator times the product of the
ciphertexts, up to congruence modulo `N²`. -/
theorem add_fold (pub : PublicKey) (hN : pub.N ≠ 0) (cs : List ℤ) (acc : ℤ) :
    ∃ a, cs.foldlM (fun accumulator c => big.Mod (accumulator * c) pub.getNSquare) acc = .ok a ∧
      a ≡ acc * cs.prod [ZMOD (pub.N * pub.N)] := by
  have hnn0 : pub.N * pub.N ≠ 0 := mul_ne_zero hN hN
  induction cs generalizing acc with
  | nil => exact ⟨acc, rfl, by simp⟩
  | cons c cs ih =>
    obtain ⟨a, ha, ha2⟩ := ih ((acc * c) % (pub.N * pub.N))
    refine ⟨a, ?_, ?_⟩
    · have hmod : big.Mod (acc * c) pub.getNSquare = .ok ((acc * c) % (pub.N * pub.N)) := by
        simp only [big.Mod, PublicKey.getNSquare, hnn0, if_false]
      rw [List.foldlM_cons, hmod]
      exact ha
    · refine ha2.trans ?_
      rw [List.prod_cons, ← mul_assoc]
      exact (Int.mod_modEq _ _).mul_right _

end paillier

namespace paillier

theorem decrypt_of_shape_primes {p q : ℕ} (hp : p.Prime) (hq : q.Prime) (hpq : p ≠ q)
    (hg : Nat.gcd (p * q) ((p - 1) * (q - 1)) = 1) (M : ℕ) (c R : ℤ)
    (hR : Int.gcd R ((p * q : ℕ) : ℤ) = 1)
    (hc : c ≡ (((p * q : ℕ) : ℤ) + 1) ^ M * R ^ (p * q)
      [ZMOD (((p * q : ℕ) : ℤ) * ((p * q : ℕ) : ℤ))]) :
    (CreatePrivateKey (p : ℤ) (q : ℤ)).Decrypt c = .ok ((M : ℤ) % ((p * q : ℕ) : ℤ)) := by
  rw [CreatePrivateKey_natCast p q hp.one_le hq.one_le]
  have hn : 2 ≤ p * q := by
    have := Nat.mul_le_mul hp.two_le hq.two_le
    omega
  have hg2 : Int.gcd (((p - 1) * (q - 1) : ℕ) : ℤ) ((p * q : ℕ) : ℤ) = 1 := by
    rw [Int.gcd_natCast_natCast, Nat.gcd_comm]
    exact hg
  exact decrypt_of_shape (p * q) ((p - 1) * (q - 1)) hn hg2 M c R hc
    (pow_modEq_one_of_primes hp hq hpq R hR)

/-- Encrypting a list of in-range plaintexts succeeds entry by entry, and the product of the
ciphertexts has the shape of an encryption of the sum of the plaintexts. -/
theorem encrypt_list (n : ℕ) (hn : 1 ≤ n) (mrs : List (ℤ × ℤ))
    (hin : ∀ x ∈ mrs, 0 ≤ x.1 ∧ x.1 < (n : ℤ) ∧ Int.gcd x.2 (n : ℤ) = 1) :
    ∃ (cs : List ℤ) (M : ℕ) (R : ℤ),
      List.Forall₂ (fun x c => PublicKey.encryptWithR { N := (n : ℤ) } x.1 x.2 = .ok c) mrs cs ∧
      cs.prod ≡ ((n : ℤ) + 1) ^ M * R ^ n [ZMOD ((n : ℤ) * n)] ∧
      Int.gcd R (n : ℤ) = 1 ∧ (M : ℤ) = (mrs.map Prod.fst).sum := by
  induction mrs with
  | nil => exact ⟨[], 0, 1, List.Forall₂.nil, by simp, by simp, by simp⟩
  | cons x xs ih =>
    obtain ⟨cs, M, R, hcs, hprod, hR, hM⟩ := ih (fun y hy => hin y (List.mem_cons_of_mem _ hy))
    obtain ⟨hx0, hx1, hxr⟩ := hin x (List.mem_cons_self _ _)
    obtain ⟨c, hc, hcm, -, -⟩ := encryptWithR_ok n hn x.1 x.2 hx0 hx1
    refine ⟨c :: cs, x.1.toNat + M, x.2 * R, List.Forall₂.cons hc hcs, ?_, ?_, ?_⟩
    · rw [List.prod_cons]
      have e : ((n : ℤ) + 1) ^ (x.1.toNat + M) * (x.2 * R) ^ n
          = ((n : ℤ) + 1) ^ x.1.toNat * x.2 ^ n * (((n : ℤ) + 1) ^ M * R ^ n) := by ring
      rw [e]
      exact hcm.mul hprod
    · exact Int.gcd_eq_one_iff_coprime.2
        ((Int.gcd_eq_one_iff_coprime.1 hxr).mul_left (Int.gcd_eq_one_iff_coprime.1 hR))
    · rw [List.map_cons, List.sum_cons, Nat.cast_add, hM, Int.toNat_of_nonneg hx0]

end paillier

namespace big

theorem SetBytes_append_singleton (buf : List (Fin 256)) (b : Fin 256) :
    SetBytes (buf ++ [b]) = SetBytes buf * 256 + (b.val : ℤ) := by
  simp [SetBytes, List.foldl_append]

theorem SetBytes_digits (ds : List ℕ) (h : ∀ d ∈ ds, d < 256) :
    SetBytes ((ds.map (fun d => (Fin.ofNat d : Fin 256))).reverse) = ((Nat.ofDigits (256 : ℕ) ds : ℕ) : ℤ) := by
  induction ds with
  | nil => simp [SetBytes, Nat.ofDigits_nil]
  | cons d ds ih =>
    have hd : d < 256 := h d (List.mem_cons_self _ _)
    rw [List.map_cons, List.reverse_cons, SetBytes_append_singleton,
      ih (fun x hx => h x (List.mem_cons_of_mem _ hx)), Nat.ofDigits_cons]
    have : ((Fin.ofNat d : Fin 256).val) = d := Nat.mod_eq_of_lt hd
    rw [this]
    push_cast
    ring

/-- What `Bytes` writes, `SetBytes` reads back. -/
theorem SetBytes_Bytes (x : ℤ) (hx : 0 ≤ x) : SetBytes (Bytes x) = x := by
  rw [Bytes, SetBytes_digits _ (fun d hd => Nat.digits_lt_base (by norm_num) hd),
    Nat.ofDigits_digits]
  exact Int.natAbs_of_nonneg hx

end big

/-- The padding key obeys the laws of a 2048-bit OAEP key. -/
theorem rsa.paddingKey_valid : rsa.paddingKey.Valid := by
  constructor
  · intro seed msg h
    simp only [rsa.paddingKey, not_le.2 h, if_false]
  · intro seed msg h
    refine ⟨Fin.ofNat msg.length :: (msg ++ List.replicate (255 - msg.length) 0), ?_, ?_, ?_⟩
    · simp only [rsa.paddingKey, h, if_true]
    · simp only [List.length_cons, List.length_append, List.length_replicate]
      omega
    · have hl : ((Fin.ofNat msg.length : Fin 256).val) = msg.length :=
        Nat.mod_eq_of_lt (by omega)
      simp only [rsa.paddingKey, hl, List.take_left']

/-- The numbering codecs give back what they encode. -/
theorem gob.numberingCodec_valid (α : Type) [Encodable α] : (gob.numberingCodec α).Valid := by
  intro x
  simp only [gob.numberingCodec, big.SetBytes_Bytes _ (Int.natCast_nonneg _), Int.toNat_ofNat,
    Encodable.encodek]

namespace elgamal

theorem gcd_eq_one_of_not_dvd {P : ℕ} (hP : P.Prime) {s : ℤ} (hs : ¬ (P : ℤ) ∣ s) :
    Int.gcd s (P : ℤ) = 1 := by
  have hprime : Prime (P : ℤ) := Nat.prime_iff_prime_int.1 hP
  rw [Int.gcd_comm]
  exact Int.gcd_eq_one_iff_coprime.2 ((Prime.coprime_iff_not_dvd hprime).2 hs)

theorem Encrypt_eq (pub : PublicKey) (hP : 0 < pub.P) (k : ℤ) (hk : 0 ≤ k) (rest : List ℤ)
    (msg : List (Fin 256)) :
    pub.Encrypt (k :: rest) msg
      = .ok { C1 := pub.G ^ k.toNat % pub.P,
              C2 := (pub.Y ^ k.toNat % pub.P * big.SetBytes msg) % pub.P } := by
  have hP0 : pub.P ≠ 0 := ne_of_gt hP
  simp only [PublicKey.Encrypt, cryptoRandInt, not_le.2 hP, if_false,
    big.Exp_of_nonneg hk hP0, big.Mod, hP0, abs_of_pos hP]

/-- Decryption of a pair of the shape `(G ^ e, (G ^ X) ^ e * M)` modulo a prime `P` that does
not divide `G` gives the bytes of `M mod P`. -/
theorem decrypt_of_pair_shape {P : ℕ} (hP : P.Prime) (priv : PrivateKey) (hkey : priv.P = (P : ℤ))
    (hG : ¬ (P : ℤ) ∣ priv.G) (hX : 0 ≤ priv.X) (e : ℕ) (M : ℤ) (c : Ciphertext)
    (h1 : c.C1 ≡ priv.G ^ e [ZMOD (P : ℤ)])
    (h2 : c.C2 ≡ (priv.G ^ priv.X.toNat) ^ e * M [ZMOD (P : ℤ)]) :
    priv.Decrypt c = .ok (big.Bytes (M % (P : ℤ))) := by
  have hprime : Prime (P : ℤ) := Nat.prime_iff_prime_int.1 hP
  have hP0 : (P : ℤ) ≠ 0 := hprime.ne_zero
  have hPpos : (0 : ℤ) < (P : ℤ) := by exact_mod_cast hP.pos
  set s : ℤ := c.C1 ^ priv.X.toNat % (P : ℤ) with hs
  have hs1 : s ≡ (priv.G ^ priv.X.toNat) ^ e [ZMOD (P : ℤ)] := by
    refine (Int.mod_modEq _ _).trans ?_
    have := h1.pow priv.X.toNat
    rw [← pow_mul] at this
    rw [← pow_mul, Nat.mul_comm]
    exact this
  have hnd : ¬ (P : ℤ) ∣ s := by
    intro hdvd
    have h3 : (P : ℤ) ∣ (priv.G ^ priv.X.toNat) ^ e := by
      have := dvd_add hs1.dvd hdvd
      rwa [sub_add_cancel] at this
    exact hG (hprime.dvd_of_dvd_pow (hprime.dvd_of_dvd_pow h3))
  obtain ⟨mu, hmu, hmu1⟩ := big.ModInverse_of_gcd (gcd_eq_one_of_not_dvd hP hnd)
  have hres : (mu * c.C2) % (P : ℤ) = M % (P : ℤ) := by
    have a1 : mu * c.C2 ≡ mu * ((priv.G ^ priv.X.toNat) ^ e * M) [ZMOD (P : ℤ)] :=
      h2.mul_left mu
    have a2 : mu * ((priv.G ^ priv.X.toNat) ^ e * M) ≡ mu * (s * M) [ZMOD (P : ℤ)] :=
      (hs1.symm.mul_right M).mul_left mu
    have a3 : mu * (s * M) ≡ 1 * M [ZMOD (P : ℤ)] := by
      rw [← mul_assoc, mul_comm mu s]
      exact hmu1.mul_right M
    have := (a1.trans a2).trans a3
    rw [one_mul] at this
    exact this
  simp only [PrivateKey.Decrypt, hkey, big.Exp_of_nonneg hX hP0, abs_of_pos hPpos, ← hs, hmu,
    Option.getD_some, big.Mod, hP0, if_false, hres]

end elgamal

namespace phcc

theorem Multiply_eq (enc : gob.Codec elgamal.Ciphertext) (seed : ℕ) (ledger : Ledger)
    (cipher1 cipher2 : elgamal.Ciphertext) (hP : ledger.mulKeyPub.P ≠ 0) :
    ledger.Multiply enc seed cipher1 cipher2 =
      match ledger.chainKeyPub.EncryptOAEP seed
          (ledger.operations ++ bytesOf DIVIDER ++ bytesOf MUL_OP) with
      | none => .error .fatal
      | some updatedOperations =>
        .ok { ledger with
              ciphertext := enc.Encode
                { C1 := (cipher1.C1 * cipher2.C1) % ledger.mulKeyPub.P,
                  C2 := (cipher1.C2 * cipher2.C2) % ledger.mulKeyPub.P },
              operations := updatedOperations } := by
  simp only [Ledger.Multiply, big.Mod, hP, if_false]

theorem Add_eq (enc : gob.Codec ℤ) (seed : ℕ) (ledger : Ledger) (c1 c2 : ℤ)
    (hN : ledger.addKeyPub.N ≠ 0) :
    ledger.Add enc seed c1 c2 =
      match ledger.chainKeyPub.EncryptOAEP seed
          (ledger.operations ++ bytesOf DIVIDER ++ bytesOf ADD_OP) with
      | none => .error .fatal
      | some updatedOperations =>
        .ok { ledger with
              ciphertext := enc.Encode
                ((c1 % (ledger.addKeyPub.N * ledger.addKeyPub.N) * c2)
                  % (ledger.addKeyPub.N * ledger.addKeyPub.N)),
              operations := updatedOperations } := by
  have hnn0 : ledger.addKeyPub.N * ledger.addKeyPub.N ≠ 0 := mul_ne_zero hN hN
  have hadd : ledger.addKeyPub.Add [c1, c2]
      = .ok ((c1 % (ledger.addKeyPub.N * ledger.addKeyPub.N) * c2)
          % (ledger.addKeyPub.N * ledger.addKeyPub.N)) := by
    simp [paillier.PublicKey.Add, List.foldlM, big.Mod, paillier.PublicKey.getNSquare, hnn0,
      paillier.ONE]
    rfl
  simp only [Ledger.Add, hadd]

set_option maxRecDepth 100000 in
theorem HexToBigInt_generatorHex :
    elgamal.HexToBigInt generatorHex = .ok
      0xA4D1CBD5C3FD34126765A442EFB99905F8104DD258AC507FD6406CFF14266D31266FEA1E5C41564B777E690F5504F213160217B4B01B886A5E91547F9E2749F4D7FBD7D3B9A92EE1909D0D2263F80A76A6A24C087A091F531DBF0A0169B6A28AD662A4D18E73AFA32D779D5918D08BC8858F4DCEF97C2A24855E6EEB22B3B2E5 := by
  rfl

/-- What `NewLedger` returns once the RSA key is generated: the ElGamal key over the parsed
generator `g` with `P = 0x71 = 113`, `X = 0x42 = 66` and `Y = g ^ 66 mod 113`, the Paillier key
of `17` and `13`, and a ledger with the public halves and empty byte fields. -/
theorem NewLedger_ok (rsaPriv : rsa.PrivateKey) :
    ∃ g : ℤ, elgamal.HexToBigInt generatorHex = .ok g ∧ ¬ (113 : ℤ) ∣ g ∧
      NewLedger (.ok rsaPriv) = .ok
        ({ chainKeyPriv := rsaPriv
           mulKeyPriv := { G := g, P := 113, Y := g ^ 66 % 113, X := 66 }
           addKeyPriv := { N := 221, Lambda := 192 } },
         { chainKeyPub := rsaPriv.toPublicKey
           mulKeyPub := { G := g, P := 113, Y := g ^ 66 % 113 }
           addKeyPub := { N := 221 }
           operations := []
           ciphertext := [] }) := by
  refine ⟨_, HexToBigInt_generatorHex, by norm_num, ?_⟩
  have h71 : elgamal.HexToBigInt "71" = .ok 113 := rfl
  have h42 : elgamal.HexToBigInt "42" = .ok 66 := rfl
  simp only [NewLedger, HexToBigInt_generatorHex, h71, h42,
    big.Exp_of_nonneg (show (0 : ℤ) ≤ 66 by norm_num) (show (113 : ℤ) ≠ 0 by norm_num)]
  rfl

end phcc

namespace big

theorem SetBytes_nonneg (buf : List (Fin 256)) : 0 ≤ SetBytes buf := by
  induction buf using List.reverseRecOn with
  | nil => simp [SetBytes]
  | append_singleton buf b ih =>
    rw [SetBytes_append_singleton]
    positivity

end big

namespace elgamal

/-- Encryption with the exponent `k` followed by decryption gives the bytes of the message
reduced modulo `P`. -/
theorem decrypt_encrypt {P : ℕ} (hP : P.Prime) (priv : PrivateKey) (hkey : priv.P = (P : ℤ))
    (hG : ¬ (P : ℤ) ∣ priv.G) (hX : 0 ≤ priv.X)
    (hY : priv.Y = priv.G ^ priv.X.toNat % (P : ℤ))
    (msg : List (Fin 256)) (k : ℤ) (hk : 0 ≤ k) (rest : List ℤ) :
    ∃ c, priv.toPublicKey.Encrypt (k :: rest) msg = .ok c ∧
      c.C1 ≡ priv.G ^ k.toNat [ZMOD (P : ℤ)] ∧
      c.C2 ≡ (priv.G ^ priv.X.toNat) ^ k.toNat * big.SetBytes msg [ZMOD (P : ℤ)] ∧
      priv.Decrypt c = .ok (big.Bytes (big.SetBytes msg % (P : ℤ))) := by
  have hPpos : (0 : ℤ) < priv.P := by
    rw [hkey]
    exact_mod_cast hP.pos
  have hc1 : priv.G ^ k.toNat % priv.P ≡ priv.G ^ k.toNat [ZMOD (P : ℤ)] := by
    rw [hkey]
    exact Int.mod_modEq _ _
  have hc2 : (priv.Y ^ k.toNat % priv.P * big.SetBytes msg) % priv.P
      ≡ (priv.G ^ priv.X.toNat) ^ k.toNat * big.SetBytes msg [ZMOD (P : ℤ)] := by
    rw [hkey, hY]
    refine (Int.mod_modEq _ _).trans (Int.ModEq.mul_right _ ?_)
    exact (Int.mod_modEq _ _).trans ((Int.mod_modEq _ _).pow _)
  exact ⟨_, Encrypt_eq priv.toPublicKey hPpos k hk rest msg, hc1, hc2,
    decrypt_of_pair_shape hP priv hkey hG hX k.toNat _ _ hc1 hc2⟩

end elgamal

namespace rsa

/-- Under the laws of the key, whatever `EncryptOAEP` returned decrypts to its input, is 256
bytes long, and its input had at most 190 bytes. -/
theorem decrypt_of_encrypt {priv : PrivateKey} (hv : priv.Valid) {seed : ℕ}
    {msg c : List (Fin 256)} (h : priv.EncryptOAEP seed msg = some c) :
    priv.DecryptOAEP c = some msg ∧ c.length = 256 ∧ msg.length ≤ 190 := by
  by_cases hlen : msg.length ≤ 190
  · obtain ⟨c', hc', hl, hd⟩ := hv.round_trip seed msg hlen
    rw [hc'] at h
    cases h
    exact ⟨hd, hl, hlen⟩
  · rw [hv.too_long seed msg (not_le.1 hlen)] at h
    cases h

end rsa

namespace phcc

theorem Add_ok_inv {enc : gob.Codec ℤ} {seed : ℕ} {ledger l : Ledger} {c1 c2 : ℤ}
    (h : ledger.Add enc seed c1 c2 = .ok l) :
    ∃ c3, ledger.chainKeyPub.EncryptOAEP seed
        (ledger.operations ++ bytesOf DIVIDER ++ bytesOf ADD_OP) = some l.operations ∧
      ledger.addKeyPub.Add [c1, c2] = .ok c3 ∧ l.ciphertext = enc.Encode c3 ∧
      l.chainKeyPub = ledger.chainKeyPub ∧ l.mulKeyPub = ledger.mulKeyPub ∧
      l.addKeyPub = ledger.addKeyPub := by
  unfold Ledger.Add at h
  simp only at h
  split at h
  · cases h
  · rename_i upd hupd
    split at h
    · cases h
    · rename_i c3 hc3
      cases h
      exact ⟨c3, hupd, hc3, rfl, rfl, rfl, rfl⟩

theorem Multiply_ok_inv {enc : gob.Codec elgamal.Ciphertext} {seed : ℕ} {ledger l : Ledger}
    {cipher1 cipher2 : elgamal.Ciphertext} (h : ledger.Multiply enc seed cipher1 cipher2 = .ok l) :
    ledger.chainKeyPub.EncryptOAEP seed
        (ledger.operations ++ bytesOf DIVIDER ++ bytesOf MUL_OP) = some l.operations ∧
      l.chainKeyPub = ledger.chainKeyPub := by
  by_cases hP : ledger.mulKeyPub.P = 0
  · simp [Ledger.Multiply, big.Mod, hP] at h
  · rw [Multiply_eq enc seed ledger cipher1 cipher2 hP] at h
    split at h
    · cases h
    · rename_i upd hupd
      cases h
      exact ⟨hupd, rfl⟩

/-- A call whose OAEP input is longer than 190 bytes ends the process. -/
theorem Add_fatal_of_long {rsaPriv : rsa.PrivateKey} (hv : rsaPriv.Valid)
    (enc : gob.Codec ℤ) (seed : ℕ) (ledger : Ledger) (c1 c2 : ℤ)
    (hkey : ledger.chainKeyPub = rsaPriv.toPublicKey)
    (hlen : 190 < (ledger.operations ++ bytesOf DIVIDER ++ bytesOf ADD_OP).length) :
    ledger.Add enc seed c1 c2 = .error .fatal := by
  simp only [Ledger.Add, hkey, hv.too_long seed _ hlen]

/-- The first `Add` on the ledger of `NewLedger` completes and leaves the encryption of
`"|Add"` in `operations`. -/
theorem fresh_Add_ok (rsaPriv : rsa.PrivateKey) (hv : rsaPriv.Valid) (keys : LedgerKeys)
    (fresh : Ledger) (hnew : NewLedger (.ok rsaPriv) = .ok (keys, fresh))
    (enc : gob.Codec ℤ) (seed : ℕ) (c1 c2 : ℤ) :
    ∃ l, fresh.Add enc seed c1 c2 = .ok l ∧
      keys.chainKeyPriv.DecryptOAEP l.operations = some (bytesOf "|Add") := by
  obtain ⟨g, -, -, hnew'⟩ := NewLedger_ok rsaPriv
  rw [hnew'] at hnew
  injection hnew with hnew
  injection hnew with hkeys hfresh
  subst hkeys hfresh
  obtain ⟨c, hc, -, hd⟩ := hv.round_trip seed (bytesOf "|Add") (by decide)
  have hrun := Add_eq enc seed
    { chainKeyPub := rsaPriv.toPublicKey
      mulKeyPub := { G := g, P := 113, Y := g ^ 66 % 113 }
      addKeyPub := { N := 221 }
      operations := []
      ciphertext := [] } c1 c2 (show (221 : ℤ) ≠ 0 by decide)
  simp only [List.nil_append] at hrun
  rw [show bytesOf DIVIDER ++ bytesOf ADD_OP = bytesOf "|Add" by decide, hc] at hrun
  exact ⟨_, hrun, hd⟩

end phcc

namespace paillier

/-- Two in-range plaintexts under the key of `17` and `13` (`N = 221`, `Lambda = 192`): both
encryptions return, and the product of the ciphertexts modulo `N²` decrypts to the sum. -/
theorem decrypt_add_pair_221 (m1 m2 r1 r2 : ℤ) (hm1 : 0 ≤ m1 ∧ m1 < 221)
    (hm2 : 0 ≤ m2 ∧ m2 < 221) (hr1 : Int.gcd r1 221 = 1) (hr2 : Int.gcd r2 221 = 1) :
    ∃ c1 c2, PublicKey.encryptWithR { N := 221 } m1 r1 = .ok c1 ∧
      PublicKey.encryptWithR { N := 221 } m2 r2 = .ok c2 ∧
      PrivateKey.Decrypt { N := 221, Lambda := 192 } ((c1 * c2) % (221 * 221))
        = .ok ((m1 + m2) % 221) := by
  obtain ⟨c1, hc1, hs1, -, -⟩ := encryptWithR_ok 221 (by norm_num) m1 r1 hm1.1 hm1.2
  obtain ⟨c2, hc2, hs2, -, -⟩ := encryptWithR_ok 221 (by norm_num) m2 r2 hm2.1 hm2.2
  refine ⟨c1, c2, hc1, hc2, ?_⟩
  have hR : Int.gcd (r1 * r2) ((17 * 13 : ℕ) : ℤ) = 1 :=
    Int.gcd_eq_one_iff_coprime.2
      ((Int.gcd_eq_one_iff_coprime.1 hr1).mul_left (Int.gcd_eq_one_iff_coprime.1 hr2))
  have hpow := pow_modEq_one_of_primes (show Nat.Prime 17 by norm_num)
    (show Nat.Prime 13 by norm_num) (by decide) (r1 * r2) hR
  have hshape : (c1 * c2) % (221 * 221)
      ≡ (((221 : ℕ) : ℤ) + 1) ^ (m1.toNat + m2.toNat) * (r1 * r2) ^ 221
      [ZMOD (((221 : ℕ) : ℤ) * ((221 : ℕ) : ℤ))] := by
    refine (Int.mod_modEq _ _).trans ?_
    have e : (((221 : ℕ) : ℤ) + 1) ^ (m1.toNat + m2.toNat) * (r1 * r2) ^ 221
        = (((221 : ℕ) : ℤ) + 1) ^ m1.toNat * r1 ^ 221
          * ((((221 : ℕ) : ℤ) + 1) ^ m2.toNat * r2 ^ 221) := by ring
    rw [e]
    exact hs1.mul hs2
  have hdec := decrypt_of_shape 221 192 (by norm_num) (by decide) (m1.toNat + m2.toNat)
    ((c1 * c2) % (221 * 221)) (r1 * r2) hshape hpow
  rw [Nat.cast_add, Int.toNat_of_nonneg hm1.1, Int.toNat_of_nonneg hm2.1] at hdec
  exact hdec

end paillier

/-! ## The claims -/

/-- C1. Paillier round trip: for distinct primes `p`, `q` with `gcd(pq, (p-1)(q-1)) = 1`, the
key `CreatePrivateKey(p, q)`, a plaintext `0 ≤ m < pq` and a randomness `r` coprime to `pq`
(in particular every `0 < r < pq` coprime to `pq`), `encryptWithR(m, r)` returns a ciphertext
and `Decrypt` of it returns `m`. -/
theorem paillier_round_trip (p q : ℕ) (hp : p.Prime) (hq : q.Prime) (hpq : p ≠ q)
    (hg : Nat.gcd (p * q) ((p - 1) * (q - 1)) = 1)
    (m r : ℤ) (hm0 : 0 ≤ m) (hm1 : m < (p : ℤ) * q) (hr : Int.gcd r ((p : ℤ) * q) = 1) :
    ∃ c, (paillier.CreatePrivateKey p q).toPublicKey.encryptWithR m r = .ok c ∧
      (paillier.CreatePrivateKey p q).Decrypt c = .ok m := by
  have hn : 1 ≤ p * q := Nat.mul_pos hp.pos hq.pos
  have hcast : ((p * q : ℕ) : ℤ) = (p : ℤ) * q := by push_cast; ring
  rw [← hcast] at hm1 hr
  obtain ⟨c, hc, hcm, -, -⟩ := paillier.encryptWithR_ok (p * q) hn m r hm0 hm1
  refine ⟨c, ?_, ?_⟩
  · rw [paillier.CreatePrivateKey_natCast p q hp.one_le hq.one_le]
    exact hc
  · rw [paillier.decrypt_of_shape_primes hp hq hpq hg m.toNat c r hr hcm,
      Int.toNat_of_nonneg hm0, Int.emod_eq_of_lt hm0 hm1]

/-- Witness of C1 at the key of `TestCheckPlaintextSpace`: `p = 13`, `q = 11`, plaintexts
`0`, `1` and `142`. -/
theorem paillier_round_trip_witness :
    (∃ c, (paillier.CreatePrivateKey 13 11).toPublicKey.encryptWithR 0 5 = .ok c ∧
      (paillier.CreatePrivateKey 13 11).Decrypt c = .ok 0) ∧
    (∃ c, (paillier.CreatePrivateKey 13 11).toPublicKey.encryptWithR 1 5 = .ok c ∧
      (paillier.CreatePrivateKey 13 11).Decrypt c = .ok 1) ∧
    (∃ c, (paillier.CreatePrivateKey 13 11).toPublicKey.encryptWithR 142 5 = .ok c ∧
      (paillier.CreatePrivateKey 13 11).Decrypt c = .ok 142) :=
  ⟨paillier_round_trip 13 11 (by norm_num) (by norm_num) (by decide) (by decide) 0 5
      (by decide) (by decide) (by decide),
   paillier_round_trip 13 11 (by norm_num) (by norm_num) (by decide) (by decide) 1 5
      (by decide) (by decide) (by decide),
   paillier_round_trip 13 11 (by norm_num) (by norm_num) (by decide) (by decide) 142 5
      (by decide) (by decide) (by decide)⟩

/-- C2. Paillier additive homomorphism: for distinct primes `p`, `q` with
`gcd(pq, (p-1)(q-1)) = 1` and any list of pairs `(m_i, r_i)` with `0 ≤ m_i < pq` and `r_i`
coprime to `pq` (the empty list included), every `encryptWithR(m_i, r_i)` returns a
ciphertext `c_i`, `Add(c_1, ..., c_n)` returns, and `Decrypt` of it returns
`(m_1 + ... + m_n) mod pq`. -/
theorem paillier_add_homomorphic (p q : ℕ) (hp : p.Prime) (hq : q.Prime) (hpq : p ≠ q)
    (hg : Nat.gcd (p * q) ((p - 1) * (q - 1)) = 1) (mrs : List (ℤ × ℤ))
    (hin : ∀ x ∈ mrs, 0 ≤ x.1 ∧ x.1 < (p : ℤ) * q ∧ Int.gcd x.2 ((p : ℤ) * q) = 1) :
    ∃ (cs : List ℤ) (sum : ℤ),
      List.Forall₂
        (fun x c => (paillier.CreatePrivateKey p q).toPublicKey.encryptWithR x.1 x.2 = .ok c)
        mrs cs ∧
      (paillier.CreatePrivateKey p q).toPublicKey.Add cs = .ok sum ∧
      (paillier.CreatePrivateKey p q).Decrypt sum
        = .ok ((mrs.map Prod.fst).sum % ((p : ℤ) * q)) := by
  have hn : 1 ≤ p * q := Nat.mul_pos hp.pos hq.pos
  have hcast : ((p * q : ℕ) : ℤ) = (p : ℤ) * q := by push_cast; ring
  rw [← hcast] at hin ⊢
  obtain ⟨cs, M, R, hcs, hprod, hR, hM⟩ := paillier.encrypt_list (p * q) hn mrs hin
  have hN0 : ((p * q : ℕ) : ℤ) ≠ 0 := by positivity
  obtain ⟨a, ha, ha2⟩ := paillier.add_fold { N := ((p * q : ℕ) : ℤ) } hN0 cs paillier.ONE
  rw [paillier.CreatePrivateKey_natCast p q hp.one_le hq.one_le]
  refine ⟨cs, a, hcs, ha, ?_⟩
  have hshape : a ≡ (((p * q : ℕ) : ℤ) + 1) ^ M * R ^ (p * q)
      [ZMOD (((p * q : ℕ) : ℤ) * ((p * q : ℕ) : ℤ))] := by
    refine ha2.trans ?_
    rw [paillier.ONE, one_mul]
    exact hprod
  rw [← paillier.CreatePrivateKey_natCast p q hp.one_le hq.one_le,
    paillier.decrypt_of_shape_primes hp hq hpq hg M a R hR hshape, hM]

/-- Witness of C2 at the keys of `TestAddCyphers` and `TestAddCypherWithSmallKeyModulus`:
`N = 221` with messages `5, 6, 7, 8` and `N = 35` with messages `30, 25, 11`. -/
theorem paillier_add_homomorphic_witness :
    (∃ (cs : List ℤ) (sum : ℤ),
      List.Forall₂
        (fun x c => (paillier.CreatePrivateKey 17 13).toPublicKey.encryptWithR x.1 x.2 = .ok c)
        [(5, 2), (6, 3), (7, 4), (8, 5)] cs ∧
      (paillier.CreatePrivateKey 17 13).toPublicKey.Add cs = .ok sum ∧
      (paillier.CreatePrivateKey 17 13).Decrypt sum = .ok 26) ∧
    (∃ (cs : List ℤ) (sum : ℤ),
      List.Forall₂
        (fun x c => (paillier.CreatePrivateKey 7 5).toPublicKey.encryptWithR x.1 x.2 = .ok c)
        [(30, 2), (25, 3), (11, 4)] cs ∧
      (paillier.CreatePrivateKey 7 5).toPublicKey.Add cs = .ok sum ∧
      (paillier.CreatePrivateKey 7 5).Decrypt sum = .ok 31) :=
  ⟨paillier_add_homomorphic 17 13 (by norm_num) (by norm_num) (by decide) (by decide)
      [(5, 2), (6, 3), (7, 4), (8, 5)] (by decide),
   paillier_add_homomorphic 7 5 (by norm_num) (by norm_num) (by decide) (by decide)
      [(30, 2), (25, 3), (11, 4)] (by decide)⟩

/-- C3. Paillier scalar multiplication: for distinct primes `p`, `q` with
`gcd(pq, (p-1)(q-1)) = 1`, a plaintext `0 ≤ m < pq`, a randomness `r` coprime to `pq` and a
scalar `k ≥ 0`, `encryptWithR(m, r)` returns a ciphertext `c`, `Mul(c, k)` returns a non-nil
value, and `Decrypt` of it returns `(m * k) mod pq`. -/
theorem paillier_mul_homomorphic (p q : ℕ) (hp : p.Prime) (hq : q.Prime) (hpq : p ≠ q)
    (hg : Nat.gcd (p * q) ((p - 1) * (q - 1)) = 1)
    (m r k : ℤ) (hm0 : 0 ≤ m) (hm1 : m < (p : ℤ) * q) (hr : Int.gcd r ((p : ℤ) * q) = 1)
    (hk : 0 ≤ k) :
    ∃ c ck, (paillier.CreatePrivateKey p q).toPublicKey.encryptWithR m r = .ok c ∧
      (paillier.CreatePrivateKey p q).toPublicKey.Mul c k = some ck ∧
      (paillier.CreatePrivateKey p q).Decrypt ck = .ok ((m * k) % ((p : ℤ) * q)) := by
  have hn : 1 ≤ p * q := Nat.mul_pos hp.pos hq.pos
  have hcast : ((p * q : ℕ) : ℤ) = (p : ℤ) * q := by push_cast; ring
  rw [← hcast] at hm1 hr ⊢
  obtain ⟨c, hc, hcm, -, -⟩ := paillier.encryptWithR_ok (p * q) hn m r hm0 hm1
  have hN0 : ((p * q : ℕ) : ℤ) ≠ 0 := by positivity
  have hnn0 : ((p * q : ℕ) : ℤ) * ((p * q : ℕ) : ℤ) ≠ 0 := mul_ne_zero hN0 hN0
  refine ⟨c, c ^ k.toNat % |((p * q : ℕ) : ℤ) * ((p * q : ℕ) : ℤ)|, ?_, ?_, ?_⟩
  · rw [paillier.CreatePrivateKey_natCast p q hp.one_le hq.one_le]
    exact hc
  · rw [paillier.CreatePrivateKey_natCast p q hp.one_le hq.one_le]
    exact big.Exp_of_nonneg hk hnn0
  · have hshape : c ^ k.toNat % |((p * q : ℕ) : ℤ) * ((p * q : ℕ) : ℤ)|
        ≡ (((p * q : ℕ) : ℤ) + 1) ^ (m.toNat * k.toNat) * (r ^ k.toNat) ^ (p * q)
        [ZMOD (((p * q : ℕ) : ℤ) * ((p * q : ℕ) : ℤ))] := by
      rw [Int.emod_abs]
      refine (Int.mod_modEq _ _).trans ?_
      have e : (((p * q : ℕ) : ℤ) + 1) ^ (m.toNat * k.toNat) * (r ^ k.toNat) ^ (p * q)
          = ((((p * q : ℕ) : ℤ) + 1) ^ m.toNat * r ^ (p * q)) ^ k.toNat := by
        rw [mul_pow, ← pow_mul, ← pow_mul, ← pow_mul, Nat.mul_comm k.toNat (p * q)]
      rw [e]
      exact hcm.pow _
    have hR : Int.gcd (r ^ k.toNat) ((p * q : ℕ) : ℤ) = 1 :=
      Int.gcd_eq_one_iff_coprime.2 ((Int.gcd_eq_one_iff_coprime.1 hr).pow_left)
    rw [paillier.decrypt_of_shape_primes hp hq hpq hg _ _ _ hR hshape]
    push_cast [Int.toNat_of_nonneg hm0, Int.toNat_of_nonneg hk]
    rfl

/-- Witness of C3 at the keys of `TestMulCypherWithSmallKeyModulus` and `TestMulCypher`:
`N = 35`, `m = 30`, `k = 93` gives `25`, and `N = 221`, `m = 3`, `k = 7` gives `21`. -/
theorem paillier_mul_homomorphic_witness :
    (∃ c ck, (paillier.CreatePrivateKey 7 5).toPublicKey.encryptWithR 30 2 = .ok c ∧
      (paillier.CreatePrivateKey 7 5).toPublicKey.Mul c 93 = some ck ∧
      (paillier.CreatePrivateKey 7 5).Decrypt ck = .ok 25) ∧
    (∃ c ck, (paillier.CreatePrivateKey 17 13).toPublicKey.encryptWithR 3 2 = .ok c ∧
      (paillier.CreatePrivateKey 17 13).toPublicKey.Mul c 7 = some ck ∧
      (paillier.CreatePrivateKey 17 13).Decrypt ck = .ok 21) :=
  ⟨paillier_mul_homomorphic 7 5 (by norm_num) (by norm_num) (by decide) (by decide) 30 2 93
      (by decide) (by decide) (by decide) (by decide),
   paillier_mul_homomorphic 17 13 (by norm_num) (by norm_num) (by decide) (by decide) 3 2 7
      (by decide) (by decide) (by decide) (by decide)⟩
/-- C4. ElGamal multiplicative homomorphism: for a key with `P` prime, `G` not divisible by
`P`, `X ≥ 0` (in particular `0 < X < P`) and `Y = G ^ X mod P`, messages `m1`, `m2` and
ephemeral exponents `k1, k2 ≥ 0` (in particular in `[0, P)`), `Encrypt` returns ciphertexts
`A` and `B`, and whenever `Ledger.Multiply(A, B)` completes on a ledger holding the public
key, the ledger's `ciphertext` decodes to the pair
`(A.C1 * B.C1 mod P, A.C2 * B.C2 mod P)`, which decrypts under the private key to the
minimal byte representation of `(m1 * m2) mod P`. -/
theorem elgamal_multiply_homomorphic (P : ℕ) (hP : P.Prime) (priv : elgamal.PrivateKey)
    (hkey : priv.P = (P : ℤ)) (hG : ¬ (P : ℤ) ∣ priv.G) (hX : 0 ≤ priv.X)
    (hY : priv.Y = priv.G ^ priv.X.toNat % (P : ℤ))
    (m1 m2 : List (Fin 256)) (k1 k2 : ℤ) (hk1 : 0 ≤ k1) (hk2 : 0 ≤ k2) (rest1 rest2 : List ℤ) :
    ∃ A B, priv.toPublicKey.Encrypt (k1 :: rest1) m1 = .ok A ∧
      priv.toPublicKey.Encrypt (k2 :: rest2) m2 = .ok B ∧
      ∀ (enc : gob.Codec elgamal.Ciphertext) (seed : ℕ) (ledger ledger' : phcc.Ledger),
        enc.Valid → ledger.mulKeyPub = priv.toPublicKey →
        ledger.Multiply enc seed A B = .ok ledger' →
        enc.Decode ledger'.ciphertext
          = some { C1 := (A.C1 * B.C1) % (P : ℤ), C2 := (A.C2 * B.C2) % (P : ℤ) } ∧
        priv.Decrypt { C1 := (A.C1 * B.C1) % (P : ℤ), C2 := (A.C2 * B.C2) % (P : ℤ) }
          = .ok (big.Bytes ((big.SetBytes m1 * big.SetBytes m2) % (P : ℤ))) := by
  obtain ⟨A, hA, hA1, hA2, -⟩ := elgamal.decrypt_encrypt hP priv hkey hG hX hY m1 k1 hk1 rest1
  obtain ⟨B, hB, hB1, hB2, -⟩ := elgamal.decrypt_encrypt hP priv hkey hG hX hY m2 k2 hk2 rest2
  refine ⟨A, B, hA, hB, ?_⟩
  intro enc seed ledger ledger' henc hpub hrun
  have hP0 : ledger.mulKeyPub.P ≠ 0 := by
    rw [hpub, hkey]
    exact_mod_cast hP.ne_zero
  have hPeq : ledger.mulKeyPub.P = (P : ℤ) := by rw [hpub, hkey]
  constructor
  · rw [phcc.Multiply_eq enc seed ledger A B hP0] at hrun
    split at hrun
    · cases hrun
    · cases hrun
      simp only [hPeq]
      exact henc _
  · refine elgamal.decrypt_of_pair_shape hP priv hkey hG hX (k1.toNat + k2.toNat) _ _ ?_ ?_
    · refine (Int.mod_modEq _ _).trans ?_
      rw [pow_add]
      exact hA1.mul hB1
    · refine (Int.mod_modEq _ _).trans ?_
      have e : (priv.G ^ priv.X.toNat) ^ (k1.toNat + k2.toNat)
            * (big.SetBytes m1 * big.SetBytes m2)
          = (priv.G ^ priv.X.toNat) ^ k1.toNat * big.SetBytes m1
            * ((priv.G ^ priv.X.toNat) ^ k2.toNat * big.SetBytes m2) := by ring
      rw [e]
      exact hA2.mul hB2

/-- Witness of C4 at the key of `NewLedger` (`P = 113`), as in `TestMultiplyDecrypt`: the
messages `4` and `2` are encrypted, multiplied by the ledger, and the decoded snapshot
decrypts to the byte `8`. -/
theorem elgamal_multiply_homomorphic_witness :
    ∃ (keys : phcc.LedgerKeys) (ledger ledger' : phcc.Ledger) (A B C : elgamal.Ciphertext),
      phcc.NewLedger (.ok rsa.paddingKey) = .ok (keys, ledger) ∧
      ledger.mulKeyPub.Encrypt [3] [4] = .ok A ∧
      ledger.mulKeyPub.Encrypt [5] [2] = .ok B ∧
      ledger.Multiply (gob.numberingCodec elgamal.Ciphertext) 0 A B = .ok ledger' ∧
      (gob.numberingCodec elgamal.Ciphertext).Decode ledger'.ciphertext = some C ∧
      keys.mulKeyPriv.Decrypt C = .ok [8] := by
  obtain ⟨g, -, hg, hnew⟩ := phcc.NewLedger_ok rsa.paddingKey
  obtain ⟨A, B, hA, hB, h⟩ := elgamal_multiply_homomorphic 113 (by norm_num)
    { G := g, P := 113, Y := g ^ 66 % 113, X := 66 } rfl hg (show (0 : ℤ) ≤ 66 by decide) rfl
    [4] [2] 3 5 (by decide) (by decide) [] []
  have hrun := phcc.Multiply_eq (gob.numberingCodec elgamal.Ciphertext) 0
    { chainKeyPub := rsa.paddingKey.toPublicKey
      mulKeyPub := { G := g, P := 113, Y := g ^ 66 % 113 }
      addKeyPub := { N := 221 }
      operations := []
      ciphertext := [] } A B (show (113 : ℤ) ≠ 0 by decide)
  obtain ⟨hdec, hres⟩ := h (gob.numberingCodec elgamal.Ciphertext) 0 _ _
    (gob.numberingCodec_valid _) rfl hrun
  refine ⟨_, _, _, A, B, _, hnew, hA, hB, hrun, hdec, ?_⟩
  have e : big.SetBytes [4] * big.SetBytes [2] % ((113 : ℕ) : ℤ) = 8 := by decide
  have e8 : big.Bytes 8 = [8] := by
    simp [big.Bytes]
    rfl
  rw [hres, e, e8]

/-- C5. Paillier plaintext-space check: for a public key with `N ≥ 2`, any `m` and any `r`,
`encryptWithR(m, r)` fails exactly when `m < 0` or `m ≥ N`; the failure is then the returned
error whose text is `"<m> is out of allowed plaintext space [0, <N>)"`, and otherwise a
ciphertext is returned.  `Encrypt` returns what `encryptWithR` returns for the randomness
drawn, whenever the draw from the random source succeeds. -/
theorem paillier_plaintext_space (pub : paillier.PublicKey) (hN : 2 ≤ pub.N) (m r : ℤ) :
    ((∃ e, pub.encryptWithR m r = .error e) ↔ (m < 0 ∨ pub.N ≤ m)) ∧
    ((m < 0 ∨ pub.N ≤ m) →
      pub.encryptWithR m r = .error (.error
        (toString m ++ " is out of allowed plaintext space [0, " ++ toString pub.N ++ ")"))) ∧
    (¬ (m < 0 ∨ pub.N ≤ m) → ∃ c, pub.encryptWithR m r = .ok c) ∧
    (∀ random r', paillier.GetRandomNumberInMultiplicativeGroup pub.N random = .ok r' →
      pub.Encrypt random m = pub.encryptWithR m r') := by
  have hout : (m < 0 ∨ pub.N ≤ m) →
      pub.encryptWithR m r = .error (.error
        (toString m ++ " is out of allowed plaintext space [0, " ++ toString pub.N ++ ")")) := by
    intro h
    have h' : m < paillier.ZERO ∨ ¬ (m < pub.N) := by
      rcases h with h | h
      · exact Or.inl h
      · exact Or.inr (not_lt.2 h)
    simp only [paillier.PublicKey.encryptWithR, h', if_true, paillier.plaintextSpaceError]
  have hin : ¬ (m < 0 ∨ pub.N ≤ m) → ∃ c, pub.encryptWithR m r = .ok c := by
    intro h
    push_neg at h
    obtain ⟨n, hn⟩ : ∃ n : ℕ, pub.N = (n : ℤ) := ⟨pub.N.toNat, (Int.toNat_of_nonneg (by linarith)).symm⟩
    have hn1 : 1 ≤ n := by
      have : (2 : ℤ) ≤ (n : ℤ) := hn ▸ hN
      omega
    obtain ⟨c, hc, -⟩ := paillier.encryptWithR_ok n hn1 m r h.1 (hn ▸ h.2)
    refine ⟨c, ?_⟩
    have hpub : pub = { N := (n : ℤ) } := by
      cases pub
      simp only at hn
      rw [hn]
    rw [hpub]
    exact hc
  refine ⟨⟨fun ⟨e, he⟩ => ?_, fun h => ⟨_, hout h⟩⟩, hout, hin, ?_⟩
  · by_contra hcon
    obtain ⟨c, hc⟩ := hin hcon
    rw [hc] at he
    cases he
  · intro random r' hr'
    simp only [paillier.PublicKey.Encrypt, hr']

/-- Witness of C5 at `N = 143`, as in `TestCheckPlaintextSpace`: `-1`, `143` and `144` are
refused with the error text naming them, and `0`, `1` and `142` are encrypted. -/
theorem paillier_plaintext_space_witness :
    (paillier.PublicKey.mk 143).encryptWithR (-1) 5
      = .error (.error "-1 is out of allowed plaintext space [0, 143)") ∧
    (paillier.PublicKey.mk 143).encryptWithR 143 5
      = .error (.error "143 is out of allowed plaintext space [0, 143)") ∧
    (paillier.PublicKey.mk 143).encryptWithR 144 5
      = .error (.error "144 is out of allowed plaintext space [0, 143)") ∧
    (∃ c, (paillier.PublicKey.mk 143).encryptWithR 0 5 = .ok c) ∧
    (∃ c, (paillier.PublicKey.mk 143).encryptWithR 1 5 = .ok c) ∧
    (∃ c, (paillier.PublicKey.mk 143).encryptWithR 142 5 = .ok c) :=
  ⟨(paillier_plaintext_space (paillier.PublicKey.mk 143) (by decide) (-1) 5).2.1
      (Or.inl (by decide)),
   (paillier_plaintext_space (paillier.PublicKey.mk 143) (by decide) 143 5).2.1
      (Or.inr (by decide)),
   (paillier_plaintext_space (paillier.PublicKey.mk 143) (by decide) 144 5).2.1
      (Or.inr (by decide)),
   (paillier_plaintext_space (paillier.PublicKey.mk 143) (by decide) 0 5).2.2.1 (by decide),
   (paillier_plaintext_space (paillier.PublicKey.mk 143) (by decide) 1 5).2.2.1 (by decide),
   (paillier_plaintext_space (paillier.PublicKey.mk 143) (by decide) 142 5).2.2.1 (by decide)⟩

/-- C6, as the code has it. For a key pair obeying the OAEP laws and the ledger returned by
`NewLedger`: the first call to `Add` or `Multiply` completes, and `operations` then decrypts
to the delimiter followed by the name of that call (`"|Add"`, `"|Multiply"`).  On any ledger
holding the public key, each call encrypts the stored `operations` bytes followed by the
delimiter and its name: when the call completes, the new `operations` decrypts to the old
`operations` bytes followed by `"|"` and the name. -/
theorem ledger_operations_chain (rsaPriv : rsa.PrivateKey) (hv : rsaPriv.Valid)
    (keys : phcc.LedgerKeys) (fresh : phcc.Ledger)
    (hnew : phcc.NewLedger (.ok rsaPriv) = .ok (keys, fresh))
    (encI : gob.Codec ℤ) (encC : gob.Codec elgamal.Ciphertext) (seed : ℕ) :
    (∀ c1 c2, ∃ l, fresh.Add encI seed c1 c2 = .ok l ∧
      keys.chainKeyPriv.DecryptOAEP l.operations = some (phcc.bytesOf "|Add")) ∧
    (∀ A B, ∃ l, fresh.Multiply encC seed A B = .ok l ∧
      keys.chainKeyPriv.DecryptOAEP l.operations = some (phcc.bytesOf "|Multiply")) ∧
    (∀ (ledger l : phcc.Ledger) (c1 c2 : ℤ), ledger.chainKeyPub = fresh.chainKeyPub →
      ledger.Add encI seed c1 c2 = .ok l →
      keys.chainKeyPriv.DecryptOAEP l.operations
        = some (ledger.operations ++ phcc.bytesOf "|" ++ phcc.bytesOf "Add")) ∧
    (∀ (ledger l : phcc.Ledger) (A B : elgamal.Ciphertext),
      ledger.chainKeyPub = fresh.chainKeyPub →
      ledger.Multiply encC seed A B = .ok l →
      keys.chainKeyPriv.DecryptOAEP l.operations
        = some (ledger.operations ++ phcc.bytesOf "|" ++ phcc.bytesOf "Multiply")) := by
  have hfirst := phcc.fresh_Add_ok rsaPriv hv keys fresh hnew encI seed
  obtain ⟨g, -, -, hnew'⟩ := phcc.NewLedger_ok rsaPriv
  rw [hnew'] at hnew
  injection hnew with hnew
  injection hnew with hkeys hfresh
  subst hkeys hfresh
  refine ⟨hfirst, ?_, ?_, ?_⟩
  · intro A B
    obtain ⟨c, hc, -, hd⟩ := hv.round_trip seed (phcc.bytesOf "|Multiply") (by decide)
    have hrun := phcc.Multiply_eq encC seed
      { chainKeyPub := rsaPriv.toPublicKey
        mulKeyPub := { G := g, P := 113, Y := g ^ 66 % 113 }
        addKeyPub := { N := 221 }
        operations := []
        ciphertext := [] } A B (show (113 : ℤ) ≠ 0 by decide)
    simp only [List.nil_append] at hrun
    rw [show phcc.bytesOf phcc.DIVIDER ++ phcc.bytesOf phcc.MUL_OP
        = phcc.bytesOf "|Multiply" by decide, hc] at hrun
    exact ⟨_, hrun, hd⟩
  · intro ledger l c1 c2 hkey hrun
    obtain ⟨c3, henc, -⟩ := phcc.Add_ok_inv hrun
    rw [hkey] at henc
    exact (rsa.decrypt_of_encrypt hv henc).1
  · intro ledger l A B hkey hrun
    obtain ⟨henc, -⟩ := phcc.Multiply_ok_inv hrun
    rw [hkey] at henc
    exact (rsa.decrypt_of_encrypt hv henc).1

/-- Witness of C6 (as the code has it) with the padding key as confidentiality key: the
first `Add` on the fresh ledger completes and `operations` decrypts to `"|Add"`. -/
theorem ledger_operations_chain_witness :
    ∃ (keys : phcc.LedgerKeys) (fresh : phcc.Ledger),
      phcc.NewLedger (.ok rsa.paddingKey) = .ok (keys, fresh) ∧
      ∃ l, fresh.Add (gob.numberingCodec ℤ) 0 1 1 = .ok l ∧
        keys.chainKeyPriv.DecryptOAEP l.operations = some (phcc.bytesOf "|Add") := by
  obtain ⟨g, -, -, hnew⟩ := phcc.NewLedger_ok rsa.paddingKey
  exact ⟨_, _, hnew, (ledger_operations_chain rsa.paddingKey rsa.paddingKey_valid _ _ hnew
    (gob.numberingCodec ℤ) (gob.numberingCodec elgamal.Ciphertext) 0).1 1 1⟩

/-- C6 fails as stated. With the padding key (which obeys the OAEP laws) as confidentiality
key, on the ledger returned by `NewLedger` and two ciphertexts of its additive key: the log
`"Add|Add"` of two calls has 7 bytes, within the 190-byte limit; the first `Add` completes,
but `operations` decrypts to `"|Add"`, not to `"Add"`; and the second `Add` does not
complete: its OAEP input is the 256-byte `operations` followed by `"|Add"`, which is refused,
and the call ends the process. -/
theorem ledger_operations_log_counterexample :
    rsa.paddingKey.Valid ∧
    ∃ (keys : phcc.LedgerKeys) (fresh l : phcc.Ledger) (c1 c2 : ℤ),
      phcc.NewLedger (.ok rsa.paddingKey) = .ok (keys, fresh) ∧
      fresh.addKeyPub.encryptWithR 4 2 = .ok c1 ∧
      fresh.addKeyPub.encryptWithR 2 3 = .ok c2 ∧
      (phcc.bytesOf "Add|Add").length ≤ 190 ∧
      fresh.Add (gob.numberingCodec ℤ) 0 c1 c2 = .ok l ∧
      keys.chainKeyPriv.DecryptOAEP l.operations = some (phcc.bytesOf "|Add") ∧
      phcc.bytesOf "|Add" ≠ phcc.bytesOf "Add" ∧
      l.operations.length = 256 ∧
      l.Add (gob.numberingCodec ℤ) 0 c1 c2 = .error .fatal := by
  refine ⟨rsa.paddingKey_valid, ?_⟩
  obtain ⟨g, -, -, hnew⟩ := phcc.NewLedger_ok rsa.paddingKey
  obtain ⟨c1, hc1, -⟩ := paillier.encryptWithR_ok 221 (by norm_num) 4 2 (by decide) (by decide)
  obtain ⟨c2, hc2, -⟩ := paillier.encryptWithR_ok 221 (by norm_num) 2 3 (by decide) (by decide)
  obtain ⟨l, hl, hd⟩ := phcc.fresh_Add_ok rsa.paddingKey rsa.paddingKey_valid _ _ hnew
    (gob.numberingCodec ℤ) 0 c1 c2
  obtain ⟨c3, henc, -, -, hkey, -⟩ := phcc.Add_ok_inv hl
  have hlen : l.operations.length = 256 :=
    (rsa.decrypt_of_encrypt rsa.paddingKey_valid henc).2.1
  refine ⟨_, _, l, c1, c2, hnew, hc1, hc2, by decide, hl, hd, by decide, hlen, ?_⟩
  refine phcc.Add_fatal_of_long rsa.paddingKey_valid _ 0 l c1 c2 hkey ?_
  simp only [List.length_append, hlen]
  omega
/-- C7. Ledger `Add` snapshot: for the keys and ledger returned by `NewLedger` (additive
`N = 221`), plaintexts `m1`, `m2` in `[0, 221)` and randomness coprime to `221`, both
encryptions under the ledger's additive public key return ciphertexts `c1`, `c2`;
`Add(c1, c2)` is `(c1 * c2) mod N²`, which decrypts under the additive private key to
`(m1 + m2) mod 221`; and whenever `ledger.Add(c1, c2)` completes on a ledger holding that
public key, whatever its byte fields held before, `ciphertext` is the serialization of
`(c1 * c2) mod N²` and deserializes to it. -/
theorem ledger_add_snapshot (rsaPriv : rsa.PrivateKey) (keys : phcc.LedgerKeys)
    (fresh : phcc.Ledger) (hnew : phcc.NewLedger (.ok rsaPriv) = .ok (keys, fresh))
    (m1 m2 r1 r2 : ℤ) (hm1 : 0 ≤ m1 ∧ m1 < 221) (hm2 : 0 ≤ m2 ∧ m2 < 221)
    (hr1 : Int.gcd r1 221 = 1) (hr2 : Int.gcd r2 221 = 1) :
    ∃ c1 c2, fresh.addKeyPub.encryptWithR m1 r1 = .ok c1 ∧
      fresh.addKeyPub.encryptWithR m2 r2 = .ok c2 ∧
      fresh.addKeyPub.Add [c1, c2] = .ok ((c1 * c2) % (221 * 221)) ∧
      keys.addKeyPriv.Decrypt ((c1 * c2) % (221 * 221)) = .ok ((m1 + m2) % 221) ∧
      ∀ (enc : gob.Codec ℤ) (seed : ℕ) (ledger ledger' : phcc.Ledger),
        enc.Valid → ledger.addKeyPub = fresh.addKeyPub →
        ledger.Add enc seed c1 c2 = .ok ledger' →
        ledger'.ciphertext = enc.Encode ((c1 * c2) % (221 * 221)) ∧
        enc.Decode ledger'.ciphertext = some ((c1 * c2) % (221 * 221)) := by
  obtain ⟨g, -, -, hnew'⟩ := phcc.NewLedger_ok rsaPriv
  rw [hnew'] at hnew
  injection hnew with hnew
  injection hnew with hkeys hfresh
  subst hkeys hfresh
  obtain ⟨c1, c2, hc1, hc2, hdec⟩ := paillier.decrypt_add_pair_221 m1 m2 r1 r2 hm1 hm2 hr1 hr2
  have hadd : paillier.PublicKey.Add { N := 221 } [c1, c2] = .ok ((c1 * c2) % (221 * 221)) := by
    have e : (c1 % (221 * 221) * c2) % (221 * 221) = (c1 * c2) % (221 * 221) :=
      ((Int.mod_modEq c1 (221 * 221)).mul_right c2).eq
    rw [← e]
    simp [paillier.PublicKey.Add, List.foldlM, big.Mod, paillier.PublicKey.getNSquare,
      paillier.ONE]
    rfl
  refine ⟨c1, c2, hc1, hc2, hadd, hdec, ?_⟩
  intro enc seed ledger ledger' henc hpub hrun
  obtain ⟨c3, -, hc3, hct, -⟩ := phcc.Add_ok_inv hrun
  rw [hpub, hadd] at hc3
  cases hc3
  exact ⟨hct, hct ▸ henc _⟩

/-- Witness of C7, as in `TestAddDecrypt`: on the ledger of `NewLedger` (padding key as
confidentiality key) the plaintexts `4` and `2` are encrypted, `ledger.Add` completes, and
the decoded snapshot decrypts to `6`. -/
theorem ledger_add_snapshot_witness :
    ∃ (keys : phcc.LedgerKeys) (fresh ledger' : phcc.Ledger) (c1 c2 c3 : ℤ),
      phcc.NewLedger (.ok rsa.paddingKey) = .ok (keys, fresh) ∧
      fresh.addKeyPub.encryptWithR 4 2 = .ok c1 ∧
      fresh.addKeyPub.encryptWithR 2 3 = .ok c2 ∧
      fresh.Add (gob.numberingCodec ℤ) 0 c1 c2 = .ok ledger' ∧
      (gob.numberingCodec ℤ).Decode ledger'.ciphertext = some c3 ∧
      keys.addKeyPriv.Decrypt c3 = .ok 6 := by
  obtain ⟨g, -, -, hnew⟩ := phcc.NewLedger_ok rsa.paddingKey
  obtain ⟨c1, c2, hc1, hc2, -, hdec, h⟩ := ledger_add_snapshot rsa.paddingKey _ _ hnew 4 2 2 3
    (by decide) (by decide) (by decide) (by decide)
  obtain ⟨l, hl, -⟩ := phcc.fresh_Add_ok rsa.paddingKey rsa.paddingKey_valid _ _ hnew
    (gob.numberingCodec ℤ) 0 c1 c2
  obtain ⟨-, hdecode⟩ := h (gob.numberingCodec ℤ) 0 _ l (gob.numberingCodec_valid ℤ) rfl hl
  exact ⟨_, _, l, c1, c2, _, hnew, hc1, hc2, hl, hdecode, hdec⟩

/-- C8. ElGamal round trip and aliasing: for a key with `P` prime, `G` not divisible by `P`,
`X ≥ 0` (in particular `0 < X < P`) and `Y = G ^ X mod P`, a message `msg` of integer value
`m` and an ephemeral exponent `k ≥ 0` (in particular in `[0, P)`), `Encrypt` returns a
ciphertext and `Decrypt` of it returns, with a nil error, the minimal big-endian bytes of
`m mod P`, which read back as `m mod P`; so for `m < P` the bytes of `m` come back, and any
message whose value is `m mod P` decrypts to the same plaintext. -/
theorem elgamal_round_trip (P : ℕ) (hP : P.Prime) (priv : elgamal.PrivateKey)
    (hkey : priv.P = (P : ℤ)) (hG : ¬ (P : ℤ) ∣ priv.G) (hX : 0 ≤ priv.X)
    (hY : priv.Y = priv.G ^ priv.X.toNat % (P : ℤ))
    (msg : List (Fin 256)) (k : ℤ) (hk : 0 ≤ k) (rest : List ℤ) :
    ∃ c, priv.toPublicKey.Encrypt (k :: rest) msg = .ok c ∧
      priv.Decrypt c = .ok (big.Bytes (big.SetBytes msg % (P : ℤ))) ∧
      big.SetBytes (big.Bytes (big.SetBytes msg % (P : ℤ))) = big.SetBytes msg % (P : ℤ) ∧
      (big.SetBytes msg < (P : ℤ) → priv.Decrypt c = .ok (big.Bytes (big.SetBytes msg))) ∧
      (∀ (msg' : List (Fin 256)) (k' : ℤ) (rest' : List ℤ), 0 ≤ k' →
        big.SetBytes msg' = big.SetBytes msg % (P : ℤ) →
        ∃ c', priv.toPublicKey.Encrypt (k' :: rest') msg' = .ok c' ∧
          priv.Decrypt c' = priv.Decrypt c) := by
  have hP0 : (P : ℤ) ≠ 0 := by exact_mod_cast hP.ne_zero
  obtain ⟨c, hc, -, -, hdec⟩ := elgamal.decrypt_encrypt hP priv hkey hG hX hY msg k hk rest
  refine ⟨c, hc, hdec, big.SetBytes_Bytes _ (Int.emod_nonneg _ hP0), ?_, ?_⟩
  · intro hlt
    rw [hdec, Int.emod_eq_of_lt (big.SetBytes_nonneg msg) hlt]
  · intro msg' k' rest' hk' hval
    obtain ⟨c', hc', -, -, hdec'⟩ :=
      elgamal.decrypt_encrypt hP priv hkey hG hX hY msg' k' hk' rest'
    refine ⟨c', hc', ?_⟩
    rw [hdec', hdec, hval, Int.emod_emod_of_dvd _ (dvd_refl _)]

/-- Witness of C8 at `P = 113`, `G = 3`, `X = 66`: the one-byte message `200` is encrypted
with `k = 5` and decrypts to the byte `87 = 200 mod 113`. -/
theorem elgamal_round_trip_witness :
    ∃ c, (elgamal.PublicKey.mk 3 113 (3 ^ 66 % 113)).Encrypt [5] [200] = .ok c ∧
      (elgamal.PrivateKey.mk (elgamal.PublicKey.mk 3 113 (3 ^ 66 % 113)) 66).Decrypt c
        = .ok [87] := by
  obtain ⟨c, hc, hdec, -⟩ := elgamal_round_trip 113 (by norm_num)
    (elgamal.PrivateKey.mk (elgamal.PublicKey.mk 3 113 (3 ^ 66 % 113)) 66) rfl (by decide)
    (by decide) rfl [200] 5 (by decide) []
  refine ⟨c, hc, ?_⟩
  have e : big.SetBytes [200] % ((113 : ℕ) : ℤ) = 87 := by decide
  have e87 : big.Bytes 87 = [87] := by
    simp [big.Bytes]
    rfl
  rw [hdec, e, e87]

/-- C9. Paillier `Add` identity: for a public key with `N ≥ 2`, `Add` of no ciphertext
returns `1` and `Add` of one ciphertext `c` returns `c mod N²`; for `p, q ≥ 2` with
`gcd(pq, (p-1)(q-1)) = 1`, `Decrypt(1)` under `CreatePrivateKey(p, q)` returns `0`. -/
theorem paillier_add_identity (pub : paillier.PublicKey) (hN : 2 ≤ pub.N) (p q : ℤ)
    (hp : 2 ≤ p) (hq : 2 ≤ q) (hg : Int.gcd (p * q) ((p - 1) * (q - 1)) = 1) :
    pub.Add [] = .ok 1 ∧
    (paillier.CreatePrivateKey p q).Decrypt 1 = .ok 0 ∧
    (∀ c, pub.Add [c] = .ok (c % (pub.N * pub.N))) := by
  refine ⟨rfl, ?_, ?_⟩
  · lift p to ℕ using (by linarith)
    lift q to ℕ using (by linarith)
    have hp1 : 1 ≤ p := by omega
    have hq1 : 1 ≤ q := by omega
    have hn : 2 ≤ p * q := by nlinarith
    have hg2 : Int.gcd (((p - 1) * (q - 1) : ℕ) : ℤ) ((p * q : ℕ) : ℤ) = 1 := by
      rw [Int.gcd_comm]
      push_cast [Nat.cast_sub hp1, Nat.cast_sub hq1]
      exact hg
    rw [paillier.CreatePrivateKey_natCast p q hp1 hq1]
    have := paillier.decrypt_of_shape (p * q) ((p - 1) * (q - 1)) hn hg2 0 1 1
      (by simp) (by simp)
    simpa using this
  · intro c
    have hN0 : pub.N ≠ 0 := by linarith
    have hnn0 : pub.N * pub.N ≠ 0 := mul_ne_zero hN0 hN0
    simp [paillier.PublicKey.Add, List.foldlM, big.Mod, paillier.PublicKey.getNSquare, hnn0,
      paillier.ONE]

/-- Witness of C9 at `N = 221`, `p = 17`, `q = 13`. -/
theorem paillier_add_identity_witness :
    (paillier.PublicKey.mk 221).Add [] = .ok 1 ∧
    (paillier.CreatePrivateKey 17 13).Decrypt 1 = .ok 0 ∧
    (∀ c, (paillier.PublicKey.mk 221).Add [c] = .ok (c % (221 * 221))) :=
  paillier_add_identity (paillier.PublicKey.mk 221) (by decide) 17 13 (by decide) (by decide)
    (by decide)

/-- C10. Paillier key generation: for all integers `p` and `q`, `CreatePrivateKey(p, q)`
has `N = p * q` and `Lambda = (p - 1) * (q - 1)`, and `computePhi(p, q)` is
`(p - 1) * (q - 1)`; in particular `computePhi(5, 7) = 24` and `CreatePrivateKey(463, 631)`
has `N = 292153` and `Lambda = 291060`. -/
theorem paillier_key_generation :
    (∀ p q : ℤ, (paillier.CreatePrivateKey p q).N = p * q ∧
      (paillier.CreatePrivateKey p q).Lambda = (p - 1) * (q - 1) ∧
      paillier.computePhi p q = (p - 1) * (q - 1)) ∧
    paillier.computePhi 5 7 = 24 ∧
    (paillier.CreatePrivateKey 463 631).N = 292153 ∧
    (paillier.CreatePrivateKey 463 631).Lambda = 291060 := by
  refine ⟨fun p q => ⟨rfl, ?_, ?_⟩, by decide, by decide, by decide⟩
  · simp only [paillier.CreatePrivateKey, paillier.computePhi, paillier.minusOne,
      paillier.NEG_ONE]
    ring
  · simp only [paillier.computePhi, paillier.minusOne, paillier.NEG_ONE]
    ring

namespace paillier

/-- The call returns `r` exactly when `r` is the first sample that is non-zero and coprime to
`n`, every sample before it being zero or not coprime to `n`. -/
theorem GetRandom_ok_iff (n : ℤ) (hn : 0 < n) (random : List ℤ) (r : ℤ) :
    GetRandomNumberInMultiplicativeGroup n random = .ok r ↔
      ∃ pre post, random = pre ++ r :: post ∧
        (∀ s ∈ pre, s = 0 ∨ Int.gcd n s ≠ 1) ∧ r ≠ 0 ∧ Int.gcd n r = 1 := by
  have hn' : ¬ n ≤ 0 := not_le.2 hn
  induction random with
  | nil =>
    constructor
    · intro h
      simp [GetRandomNumberInMultiplicativeGroup, hn'] at h
    · rintro ⟨pre, post, h, -⟩
      simp at h
  | cons s rest ih =>
    by_cases hrej : s = 0 ∨ Int.gcd n s ≠ 1
    · have hcond : ZERO = s ∨ ONE ≠ ((Int.gcd n s : ℕ) : ℤ) := by
        rcases hrej with h | h
        · exact Or.inl h.symm
        · refine Or.inr (fun h1 => h ?_)
          have : ((Int.gcd n s : ℕ) : ℤ) = 1 := h1.symm
          exact_mod_cast this
      have hstep : GetRandomNumberInMultiplicativeGroup n (s :: rest)
          = GetRandomNumberInMultiplicativeGroup n rest := by
        simp only [GetRandomNumberInMultiplicativeGroup, hn', if_false, hcond, if_true]
      rw [hstep]
      refine ih.trans ?_
      constructor
      · rintro ⟨pre, post, h, hpre, hr⟩
        refine ⟨s :: pre, post, by rw [h]; rfl, ?_, hr⟩
        intro x hx
        rcases List.mem_cons.1 hx with hx | hx
        · rw [hx]
          exact hrej
        · exact hpre x hx
      · rintro ⟨pre, post, h, hpre, hr0, hr1⟩
        cases pre with
        | nil =>
          simp only [List.nil_append, List.cons.injEq] at h
          rcases hrej with h0 | h0
          · exact absurd (h.1 ▸ h0) hr0
          · exact absurd (h.1 ▸ hr1) h0
        | cons x pre =>
          simp only [List.cons_append, List.cons.injEq] at h
          exact ⟨pre, post, h.2, fun y hy => hpre y (List.mem_cons_of_mem _ hy), hr0, hr1⟩
    · push_neg at hrej
      have hcond : ¬ (ZERO = s ∨ ONE ≠ ((Int.gcd n s : ℕ) : ℤ)) := by
        rintro (h | h)
        · exact hrej.1 h.symm
        · apply h
          rw [hrej.2]
          rfl
      have hstep : GetRandomNumberInMultiplicativeGroup n (s :: rest) = .ok s := by
        simp only [GetRandomNumberInMultiplicativeGroup, hn', if_false, hcond]
      rw [hstep]
      constructor
      · intro h
        cases h
        exact ⟨[], rest, rfl, by simp, hrej.1, hrej.2⟩
      · rintro ⟨pre, post, h, hpre, -⟩
        cases pre with
        | nil =>
          simp only [List.nil_append, List.cons.injEq] at h
          rw [h.1]
        | cons x pre =>
          simp only [List.cons_append, List.cons.injEq] at h
          rcases hpre x (List.mem_cons_self _ _) with h0 | h0
          · exact absurd (h.1 ▸ h0) hrej.1
          · exact absurd (h.1 ▸ hrej.2) h0

end paillier

/-- C11. Multiplicative-group sampling: with the random source a sequence of samples, each in
`[0, n)`, and `n ≥ 2`, the call returns `r` without error exactly when `r` is the first sample
that is non-zero and coprime to `n` (every earlier sample is zero or not coprime to `n`); such
an `r` satisfies `0 < r < n` and has a multiplicative inverse modulo `n`, the one
`ModInverse` returns. -/
theorem random_group_element (n : ℤ) (hn : 2 ≤ n) (random : List ℤ)
    (hrange : ∀ s ∈ random, 0 ≤ s ∧ s < n) (r : ℤ) :
    (paillier.GetRandomNumberInMultiplicativeGroup n random = .ok r ↔
      ∃ pre post, random = pre ++ r :: post ∧
        (∀ s ∈ pre, s = 0 ∨ Int.gcd n s ≠ 1) ∧ r ≠ 0 ∧ Int.gcd n r = 1) ∧
    (paillier.GetRandomNumberInMultiplicativeGroup n random = .ok r →
      0 < r ∧ r < n ∧ ∃ inv, big.ModInverse r n = some inv ∧ r * inv ≡ 1 [ZMOD n]) := by
  have hiff := paillier.GetRandom_ok_iff n (by linarith) random r
  refine ⟨hiff, fun h => ?_⟩
  obtain ⟨pre, post, hsplit, -, hr0, hr1⟩ := hiff.1 h
  have hmem : r ∈ random := by
    rw [hsplit]
    exact List.mem_append_right _ (List.mem_cons_self _ _)
  obtain ⟨h0, h1⟩ := hrange r hmem
  refine ⟨lt_of_le_of_ne h0 (Ne.symm hr0), h1, ?_⟩
  exact big.ModInverse_of_gcd (by rw [Int.gcd_comm]; exact hr1)

/-- Witness of C11 at `n = 221`: of the samples `0, 13, 34, 5, 7` the first three are
rejected (`0`, and two multiples of `13` and `17`), and `5` is returned. -/
theorem random_group_element_witness :
    paillier.GetRandomNumberInMultiplicativeGroup 221 [0, 13, 34, 5, 7] = .ok 5 ∧
    (0 : ℤ) < 5 ∧ (5 : ℤ) < 221 ∧
    ∃ inv, big.ModInverse 5 221 = some inv ∧ 5 * inv ≡ 1 [ZMOD 221] :=
  have hrun : paillier.GetRandomNumberInMultiplicativeGroup 221 [0, 13, 34, 5, 7] = .ok 5 :=
    (random_group_element 221 (by decide) [0, 13, 34, 5, 7] (by decide) 5).1.2
      ⟨[0, 13, 34], [7], rfl, by decide, by decide, by decide⟩
  ⟨hrun, (random_group_element 221 (by decide) [0, 13, 34, 5, 7] (by decide) 5).2 hrun⟩

/-- C12. Ledger key consistency: once the RSA key is generated, `NewLedger` returns private
keys and a ledger such that the ledger's public keys are the public parts of the returned
private keys (confidentiality, multiplicative and additive), the multiplicative key satisfies
`Y = G ^ X mod P` (it is what `Exp(G, X, P)` returned), the additive key has
`N = 17 * 13 = 221` and `Lambda = 16 * 12 = 192`, and `operations` and `ciphertext` are
empty. -/
theorem ledger_key_consistency (rsaPriv : rsa.PrivateKey) :
    ∃ (keys : phcc.LedgerKeys) (ledger : phcc.Ledger),
      phcc.NewLedger (.ok rsaPriv) = .ok (keys, ledger) ∧
      ledger.chainKeyPub = keys.chainKeyPriv.toPublicKey ∧
      ledger.mulKeyPub = keys.mulKeyPriv.toPublicKey ∧
      big.Exp keys.mulKeyPriv.G keys.mulKeyPriv.X keys.mulKeyPriv.P = some keys.mulKeyPriv.Y ∧
      keys.mulKeyPriv.Y = keys.mulKeyPriv.G ^ keys.mulKeyPriv.X.toNat % keys.mulKeyPriv.P ∧
      ledger.addKeyPub = keys.addKeyPriv.toPublicKey ∧
      keys.addKeyPriv.N = 17 * 13 ∧ keys.addKeyPriv.N = 221 ∧
      keys.addKeyPriv.Lambda = 16 * 12 ∧ keys.addKeyPriv.Lambda = 192 ∧
      ledger.operations = [] ∧ ledger.ciphertext = [] := by
  obtain ⟨g, -, -, hnew⟩ := phcc.NewLedger_ok rsaPriv
  refine ⟨_, _, hnew, rfl, rfl, ?_, rfl, rfl, show (221 : ℤ) = 17 * 13 by decide, rfl,
    show (192 : ℤ) = 16 * 12 by decide, rfl, rfl, rfl⟩
  exact big.Exp_of_nonneg (show (0 : ℤ) ≤ 66 by decide) (show (113 : ℤ) ≠ 0 by decide)

namespace elgamal

/-- For a positive modulus and a non-negative sample, `Encrypt` returns a ciphertext for every
message: no branch of it looks at the size of the message. -/
theorem Encrypt_never_rejects (pub : PublicKey) (hP : 0 < pub.P) (k : ℤ) (hk : 0 ≤ k)
    (rest : List ℤ) (msg : List (Fin 256)) : ∃ c, pub.Encrypt (k :: rest) msg = .ok c :=
  ⟨_, Encrypt_eq pub hP k hk rest msg⟩

end elgamal

set_option maxRecDepth 100000 in
/-- C13 fails on the code. Under the key `G = 3`, `P = 113`, `X = 66`, with the sample
`k = 5`, the one-byte message `200` has the value `200 ≥ 113 = P`, and `Encrypt` returns the
ciphertext `(17, 15)` with a nil error instead of an error. -/
theorem elgamal_encrypt_oversized :
    (113 : ℤ) ≤ big.SetBytes [200] ∧
    (elgamal.PublicKey.mk 3 113 (3 ^ 66 % 113)).Encrypt [5] [200]
      = .ok { C1 := 17, C2 := 15 } := by
  refine ⟨by decide, ?_⟩
  rfl

namespace big

/-- Every non-nil result of `Exp` with a non-zero modulus `m` lies in `[0, |m|)`. -/
theorem Exp_range {x y m v : ℤ} (hm : m ≠ 0) (h : Exp x y m = some v) : 0 ≤ v ∧ v < |m| := by
  have habs : (0 : ℤ) < |m| := abs_pos.2 hm
  have hr : ∀ z : ℤ, 0 ≤ z % |m| ∧ z % |m| < |m| := fun z =>
    ⟨Int.emod_nonneg _ (ne_of_gt habs), Int.emod_lt_of_pos _ habs⟩
  unfold Exp at h
  by_cases hy : y < 0
  · simp only [hy, if_true, hm, if_false] at h
    cases hinv : ModInverse x m with
    | none =>
      rw [hinv] at h
      cases h
    | some inverse =>
      rw [hinv] at h
      cases h
      exact hr _
  · simp only [hy, if_false, hm] at h
    cases h
    exact hr _

end big

/-- C14. ElGamal `Decrypt` never errors: for a private key with `P ≥ 1` and `X ≥ 0` and any
pair of integers `(C1, C2)`, `Decrypt` returns, with a nil error and without a panic, the
minimal byte representation of an integer `s` with `0 ≤ s < P`; the pair is not checked in
any way. -/
theorem elgamal_decrypt_total (priv : elgamal.PrivateKey) (hP : 1 ≤ priv.P) (hX : 0 ≤ priv.X)
    (c : elgamal.Ciphertext) :
    ∃ s, priv.Decrypt c = .ok (big.Bytes s) ∧ 0 ≤ s ∧ s < priv.P ∧
      big.SetBytes (big.Bytes s) = s := by
  have hP0 : priv.P ≠ 0 := by linarith
  have hPpos : 0 < priv.P := by linarith
  refine ⟨((big.ModInverse (c.C1 ^ priv.X.toNat % |priv.P|) priv.P).getD
      (c.C1 ^ priv.X.toNat % |priv.P|) * c.C2) % priv.P, ?_, Int.emod_nonneg _ hP0,
    Int.emod_lt_of_pos _ hPpos, big.SetBytes_Bytes _ (Int.emod_nonneg _ hP0)⟩
  simp only [elgamal.PrivateKey.Decrypt, big.Exp_of_nonneg hX hP0, big.Mod, hP0, if_false]

/-- Witness of C14 under the key `G = 3`, `P = 113`, `X = 66`: the pairs `(0, 56)` and
`(-7, 1000)`, which no encryption produces, are decrypted all the same. -/
theorem elgamal_decrypt_total_witness :
    (∃ s, (elgamal.PrivateKey.mk (elgamal.PublicKey.mk 3 113 (3 ^ 66 % 113)) 66).Decrypt
        { C1 := 0, C2 := 56 } = .ok (big.Bytes s) ∧ 0 ≤ s ∧ s < 113 ∧
      big.SetBytes (big.Bytes s) = s) ∧
    (∃ s, (elgamal.PrivateKey.mk (elgamal.PublicKey.mk 3 113 (3 ^ 66 % 113)) 66).Decrypt
        { C1 := -7, C2 := 1000 } = .ok (big.Bytes s) ∧ 0 ≤ s ∧ s < 113 ∧
      big.SetBytes (big.Bytes s) = s) :=
  ⟨elgamal_decrypt_total (elgamal.PrivateKey.mk (elgamal.PublicKey.mk 3 113 (3 ^ 66 % 113)) 66)
      (by decide) (by decide) { C1 := 0, C2 := 56 },
   elgamal_decrypt_total (elgamal.PrivateKey.mk (elgamal.PublicKey.mk 3 113 (3 ^ 66 % 113)) 66)
      (by decide) (by decide) { C1 := -7, C2 := 1000 }⟩

/-- C15. Paillier `Decrypt` is total under the key precondition: for `p, q ≥ 2` and the key
`CreatePrivateKey(p, q)`, the inverse `mu` of `Lambda` modulo `N` exists, and `ModInverse`
returns it, exactly when `gcd(pq, (p-1)(q-1)) = 1`; when it does, `Decrypt` returns for every
integer `c` a value in `[0, N)`, and when it does not, `Decrypt` panics for every `c`. -/
theorem paillier_decrypt_total (p q : ℤ) (hp : 2 ≤ p) (hq : 2 ≤ q) :
    ((∃ mu, big.ModInverse (paillier.CreatePrivateKey p q).Lambda (paillier.CreatePrivateKey p q).N
        = some mu) ↔ Int.gcd (p * q) ((p - 1) * (q - 1)) = 1) ∧
    ((∃ mu : ℤ, (paillier.CreatePrivateKey p q).Lambda * mu
        ≡ 1 [ZMOD (paillier.CreatePrivateKey p q).N]) ↔
      Int.gcd (p * q) ((p - 1) * (q - 1)) = 1) ∧
    (Int.gcd (p * q) ((p - 1) * (q - 1)) = 1 →
      ∀ c, ∃ v, (paillier.CreatePrivateKey p q).Decrypt c = .ok v ∧ 0 ≤ v ∧ v < p * q) ∧
    (Int.gcd (p * q) ((p - 1) * (q - 1)) ≠ 1 →
      ∀ c, (paillier.CreatePrivateKey p q).Decrypt c = .error .panic) := by
  have hN : (paillier.CreatePrivateKey p q).N = p * q := rfl
  have hL : (paillier.CreatePrivateKey p q).Lambda = (p - 1) * (q - 1) := by
    simp only [paillier.CreatePrivateKey, paillier.computePhi, paillier.minusOne,
      paillier.NEG_ONE]
    ring
  have hNpos : 0 < p * q := by nlinarith
  have hN0 : p * q ≠ 0 := ne_of_gt hNpos
  have hL0 : 0 ≤ (p - 1) * (q - 1) := by nlinarith
  rw [hN, hL]
  have hinv : (∃ mu, big.ModInverse ((p - 1) * (q - 1)) (p * q) = some mu) ↔
      Int.gcd (p * q) ((p - 1) * (q - 1)) = 1 := by
    rw [Int.gcd_comm]
    unfold big.ModInverse
    by_cases h : Int.gcd ((p - 1) * (q - 1)) (p * q) = 1
    · simp [h]
    · simp [h]
  refine ⟨hinv, ?_, ?_, ?_⟩
  · constructor
    · rintro ⟨mu, hmu⟩
      rw [Int.gcd_comm]
      apply Int.gcd_eq_one_iff_coprime.2
      obtain ⟨k, hk⟩ := (Int.modEq_iff_dvd.1 hmu)
      exact ⟨mu, k, by linarith⟩
    · intro h
      obtain ⟨mu, -, hmu⟩ := big.ModInverse_of_gcd (by rw [Int.gcd_comm]; exact h)
      exact ⟨mu, hmu⟩
  · intro h c
    obtain ⟨mu, hmu⟩ := hinv.2 h
    refine ⟨(((c ^ ((p - 1) * (q - 1)).toNat % |p * q * (p * q)|) + -1) / (p * q) * mu) % (p * q),
      ?_, Int.emod_nonneg _ hN0, Int.emod_lt_of_pos _ hNpos⟩
    simp only [paillier.PrivateKey.Decrypt, hN, hL, hmu, paillier.PublicKey.getNSquare,
      big.Exp_of_nonneg hL0 (mul_ne_zero hN0 hN0), paillier.L, big.Div, big.Mod, hN0, if_false,
      paillier.NEG_ONE]
  · intro h c
    have hnone : big.ModInverse ((p - 1) * (q - 1)) (p * q) = none := by
      cases hm : big.ModInverse ((p - 1) * (q - 1)) (p * q) with
      | none => rfl
      | some mu => exact absurd (hinv.1 ⟨mu, hm⟩) h
    simp only [paillier.PrivateKey.Decrypt, hN, hL, hnone]

/-- Witness of C15 at `p = 13`, `q = 11`: the inverse exists and the arbitrary integer `-5`
is decrypted to a value in `[0, 143)`. -/
theorem paillier_decrypt_total_witness :
    (∃ mu, big.ModInverse (paillier.CreatePrivateKey 13 11).Lambda
        (paillier.CreatePrivateKey 13 11).N = some mu) ∧
    ∃ v, (paillier.CreatePrivateKey 13 11).Decrypt (-5) = .ok v ∧ 0 ≤ v ∧ v < 13 * 11 :=
  ⟨(paillier_decrypt_total 13 11 (by decide) (by decide)).1.2 (by decide),
   (paillier_decrypt_total 13 11 (by decide) (by decide)).2.2.1 (by decide) (-5)⟩

/-- Euler's theorem for a product of two distinct primes: an integer coprime to `pq`, raised
to `(p - 1)(q - 1)`, is `1` modulo `pq`. -/
theorem pow_totient_of_primes {p q : ℕ} (hp : p.Prime) (hq : q.Prime) (hpq : p ≠ q) (c : ℤ)
    (hc : Int.gcd c ((p * q : ℕ) : ℤ) = 1) :
    c ^ ((p - 1) * (q - 1)) ≡ 1 [ZMOD ((p * q : ℕ) : ℤ)] := by
  have h := intCast_pow_totient (p * q) c (Int.gcd_eq_one_iff_coprime.1 hc)
  rw [Nat.totient_mul ((Nat.coprime_primes hp hq).2 hpq), Nat.totient_prime hp,
    Nat.totient_prime hq] at h
  exact h

/-- C16. Exactness of the L-function in decryption: for distinct primes `p`, `q`, the key
`CreatePrivateKey(p, q)` with `N = pq` and `Lambda = (p-1)(q-1)`, and a ciphertext `c` with
`gcd(c, N) = 1`, the value `t = c ^ Lambda mod N²` that `Decrypt` hands to `L` satisfies
`t ≡ 1 (mod N)`, and `L(t, N)` returns the exact quotient: `L(t, N) * N = t - 1`.  `L` itself
returns the quotient of `u - 1` by `n`: `L(21, 3) = 6`. -/
theorem paillier_L_exact (p q : ℕ) (hp : p.Prime) (hq : q.Prime) (hpq : p ≠ q) (c : ℤ)
    (hc : Int.gcd c ((p : ℤ) * q) = 1) :
    (∃ t l, big.Exp c (paillier.CreatePrivateKey p q).Lambda
        (paillier.CreatePrivateKey p q).toPublicKey.getNSquare = some t ∧
      t ≡ 1 [ZMOD (paillier.CreatePrivateKey p q).N] ∧
      paillier.L t (paillier.CreatePrivateKey p q).N = .ok l ∧
      l * (paillier.CreatePrivateKey p q).N = t - 1) ∧
    paillier.L 21 3 = .ok 6 := by
  refine ⟨?_, rfl⟩
  have hcast : ((p * q : ℕ) : ℤ) = (p : ℤ) * q := by push_cast; ring
  rw [← hcast] at hc
  rw [paillier.CreatePrivateKey_natCast p q hp.one_le hq.one_le]
  have hN0 : ((p * q : ℕ) : ℤ) ≠ 0 := by
    have := Nat.mul_pos hp.pos hq.pos
    positivity
  have hnn0 : ((p * q : ℕ) : ℤ) * ((p * q : ℕ) : ℤ) ≠ 0 := mul_ne_zero hN0 hN0
  have hnn : (0 : ℤ) < ((p * q : ℕ) : ℤ) * ((p * q : ℕ) : ℤ) := by positivity
  have ht : c ^ ((p - 1) * (q - 1)) % (((p * q : ℕ) : ℤ) * ((p * q : ℕ) : ℤ))
      ≡ 1 [ZMOD ((p * q : ℕ) : ℤ)] := by
    refine Int.ModEq.trans ?_ (pow_totient_of_primes hp hq hpq c hc)
    exact Int.emod_emod_of_dvd _ (dvd_mul_right _ _)
  refine ⟨c ^ ((p - 1) * (q - 1)) % (((p * q : ℕ) : ℤ) * ((p * q : ℕ) : ℤ)),
    (c ^ ((p - 1) * (q - 1)) % (((p * q : ℕ) : ℤ) * ((p * q : ℕ) : ℤ)) + -1)
      / ((p * q : ℕ) : ℤ), ?_, ht, ?_, ?_⟩
  · simp only [paillier.PublicKey.getNSquare,
      big.Exp_of_nonneg (Int.natCast_nonneg _) hnn0, Int.toNat_ofNat, abs_of_pos hnn]
  · simp only [paillier.L, big.Div, hN0, if_false, paillier.NEG_ONE]
  · have hdvd : ((p * q : ℕ) : ℤ)
        ∣ c ^ ((p - 1) * (q - 1)) % (((p * q : ℕ) : ℤ) * ((p * q : ℕ) : ℤ)) + -1 := by
      have := (Int.modEq_iff_dvd.1 ht.symm)
      rwa [sub_eq_add_neg] at this
    exact Int.ediv_mul_cancel hdvd

/-- Witness of C16 at `p = 13`, `q = 11` and the ciphertext `10278`. -/
theorem paillier_L_exact_witness :
    ∃ t l, big.Exp 10278 (paillier.CreatePrivateKey 13 11).Lambda
        (paillier.CreatePrivateKey 13 11).toPublicKey.getNSquare = some t ∧
      t ≡ 1 [ZMOD (paillier.CreatePrivateKey 13 11).N] ∧
      paillier.L t (paillier.CreatePrivateKey 13 11).N = .ok l ∧
      l * (paillier.CreatePrivateKey 13 11).N = t - 1 :=
  (paillier_L_exact 13 11 (by norm_num) (by norm_num) (by decide) 10278 (by decide)).1

namespace paillier

/-- The value of `Add` on a non-empty list: the accumulator times the product of the
ciphertexts, reduced modulo `N²`. -/
theorem add_fold_value (pub : PublicKey) (hN : pub.N ≠ 0) (cs : List ℤ) (c acc : ℤ) :
    (c :: cs).foldlM (fun accumulator c => big.Mod (accumulator * c) pub.getNSquare) acc
      = .ok ((acc * (c :: cs).prod) % (pub.N * pub.N)) := by
  have hnn0 : pub.N * pub.N ≠ 0 := mul_ne_zero hN hN
  have hmod : ∀ x, big.Mod x pub.getNSquare = .ok (x % (pub.N * pub.N)) := by
    intro x
    simp only [big.Mod, PublicKey.getNSquare, hnn0, if_false]
  induction cs generalizing c acc with
  | nil =>
    rw [List.foldlM_cons, hmod, List.prod_singleton]
    rfl
  | cons d ds ih =>
    rw [List.foldlM_cons, hmod]
    refine Eq.trans (show _ = List.foldlM
      (fun accumulator c => big.Mod (accumulator * c) pub.getNSquare)
      ((acc * c) % (pub.N * pub.N)) (d :: ds) from rfl) ?_
    have e : (c :: d :: ds).prod = c * (d :: ds).prod := List.prod_cons
    rw [ih d, e, ← mul_assoc]
    exact congrArg Except.ok ((Int.mod_modEq (acc * c) (pub.N * pub.N)).mul_right _).eq

/-- For `N ≥ 2`, `Add` returns for every list, and what it returns lies in `[0, N²)`. -/
theorem Add_range (pub : PublicKey) (hN : 2 ≤ pub.N) (cs : List ℤ) :
    ∃ c, pub.Add cs = .ok c ∧ 0 ≤ c ∧ c < pub.N * pub.N := by
  have hN0 : pub.N ≠ 0 := by linarith
  have hnn : 0 < pub.N * pub.N := by nlinarith
  cases cs with
  | nil => exact ⟨1, rfl, by decide, by nlinarith⟩
  | cons c cs =>
    exact ⟨_, add_fold_value pub hN0 cs c ONE, Int.emod_nonneg _ (ne_of_gt hnn),
      Int.emod_lt_of_pos _ hnn⟩

/-- For `N ≥ 1`, every ciphertext `encryptWithR` returns lies in `[0, N²)`. -/
theorem encryptWithR_range (pub : PublicKey) (hN : 1 ≤ pub.N) (m r c : ℤ)
    (h : pub.encryptWithR m r = .ok c) : 0 ≤ c ∧ c < pub.N * pub.N := by
  by_cases hout : m < 0 ∨ pub.N ≤ m
  · have h' : m < ZERO ∨ ¬ (m < pub.N) := by
      rcases hout with h1 | h1
      · exact Or.inl h1
      · exact Or.inr (not_lt.2 h1)
    simp only [PublicKey.encryptWithR, h', if_true] at h
    cases h
  · push_neg at hout
    obtain ⟨n, hn⟩ : ∃ n : ℕ, pub.N = (n : ℤ) :=
      ⟨pub.N.toNat, (Int.toNat_of_nonneg (by linarith)).symm⟩
    have hn1 : 1 ≤ n := by
      have : (1 : ℤ) ≤ (n : ℤ) := hn ▸ hN
      omega
    have hpub : pub = { N := (n : ℤ) } := by
      cases pub
      simp only at hn
      rw [hn]
    obtain ⟨c', hc', -, h0, h1⟩ := encryptWithR_ok n hn1 m r hout.1 (hn ▸ hout.2)
    rw [hpub] at h
    rw [hc'] at h
    cases h
    rw [hn]
    exact ⟨h0, h1⟩

end paillier

namespace elgamal

/-- For `P ≥ 1`, both components of every ciphertext `Encrypt` returns lie in `[0, P)`. -/
theorem Encrypt_range (pub : PublicKey) (hP : 1 ≤ pub.P) (random : List ℤ)
    (msg : List (Fin 256)) (ct : Ciphertext) (h : pub.Encrypt random msg = .ok ct) :
    (0 ≤ ct.C1 ∧ ct.C1 < pub.P) ∧ (0 ≤ ct.C2 ∧ ct.C2 < pub.P) := by
  have hP0 : pub.P ≠ 0 := by linarith
  have hPpos : 0 < pub.P := by linarith
  cases random with
  | nil => simp [PublicKey.Encrypt, cryptoRandInt, not_le.2 hPpos] at h
  | cons k rest =>
    simp only [PublicKey.Encrypt, cryptoRandInt, not_le.2 hPpos, if_false] at h
    cases h1 : big.Exp pub.G k pub.P with
    | none => simp [h1] at h
    | some c1 =>
      cases h2 : big.Exp pub.Y k pub.P with
      | none => simp [h1, h2] at h
      | some s =>
        simp only [h1, h2, big.Mod, hP0, if_false] at h
        cases h
        have hr := big.Exp_range hP0 h1
        rw [abs_of_pos hPpos] at hr
        exact ⟨hr, Int.emod_nonneg _ hP0, Int.emod_lt_of_pos _ hPpos⟩

end elgamal

/-- C17. Ciphertext range invariant: for a Paillier public key with `N ≥ 2`, every ciphertext
`encryptWithR` returns lies in `[0, N²)`, `Add` returns for any list of integers (the empty
one included) a value in `[0, N²)`, and `Mul` returns for any integer `c` and scalar `k ≥ 0` a
value in `[0, N²)`; for an ElGamal public key with `P ≥ 1`, both components of every
ciphertext `Encrypt` returns lie in `[0, P)`, and whenever `Ledger.Multiply` completes on a
ledger holding the key, for arbitrary integer components of its two arguments, the pair it
serializes has both components in `[0, P)`. -/
theorem ciphertext_range (pub : paillier.PublicKey) (hN : 2 ≤ pub.N) (epub : elgamal.PublicKey)
    (hP : 1 ≤ epub.P) :
    (∀ m r c, pub.encryptWithR m r = .ok c → 0 ≤ c ∧ c < pub.N * pub.N) ∧
    (∀ cs, ∃ c, pub.Add cs = .ok c ∧ 0 ≤ c ∧ c < pub.N * pub.N) ∧
    (∀ c k, 0 ≤ k → ∃ v, pub.Mul c k = some v ∧ 0 ≤ v ∧ v < pub.N * pub.N) ∧
    (∀ random msg ct, epub.Encrypt random msg = .ok ct →
      (0 ≤ ct.C1 ∧ ct.C1 < epub.P) ∧ (0 ≤ ct.C2 ∧ ct.C2 < epub.P)) ∧
    (∀ (enc : gob.Codec elgamal.Ciphertext) (seed : ℕ) (ledger ledger' : phcc.Ledger)
        (A B : elgamal.Ciphertext),
      ledger.mulKeyPub = epub → ledger.Multiply enc seed A B = .ok ledger' →
      ∃ C : elgamal.Ciphertext, ledger'.ciphertext = enc.Encode C ∧
        C.C1 = (A.C1 * B.C1) % epub.P ∧ C.C2 = (A.C2 * B.C2) % epub.P ∧
        (0 ≤ C.C1 ∧ C.C1 < epub.P) ∧ (0 ≤ C.C2 ∧ C.C2 < epub.P)) := by
  have hN0 : pub.N ≠ 0 := by linarith
  have hnn : 0 < pub.N * pub.N := by nlinarith
  have hP0 : epub.P ≠ 0 := by linarith
  have hPpos : 0 < epub.P := by linarith
  refine ⟨fun m r c h => paillier.encryptWithR_range pub (by linarith) m r c h,
    paillier.Add_range pub hN, ?_, elgamal.Encrypt_range epub hP, ?_⟩
  · intro c k hk
    refine ⟨c ^ k.toNat % |pub.N * pub.N|, big.Exp_of_nonneg hk (ne_of_gt hnn), ?_⟩
    rw [abs_of_pos hnn]
    exact ⟨Int.emod_nonneg _ (ne_of_gt hnn), Int.emod_lt_of_pos _ hnn⟩
  · intro enc seed ledger ledger' A B hkey hrun
    have hP0' : ledger.mulKeyPub.P ≠ 0 := by rw [hkey]; exact hP0
    rw [phcc.Multiply_eq enc seed ledger A B hP0'] at hrun
    split at hrun
    · cases hrun
    · cases hrun
      refine ⟨{ C1 := (A.C1 * B.C1) % epub.P, C2 := (A.C2 * B.C2) % epub.P }, ?_, rfl, rfl,
        ⟨Int.emod_nonneg _ hP0, Int.emod_lt_of_pos _ hPpos⟩,
        ⟨Int.emod_nonneg _ hP0, Int.emod_lt_of_pos _ hPpos⟩⟩
      simp only [hkey]

/-- Witness of C17 at `N = 221` and the key `G = 3`, `P = 113`: `Add` of no ciphertext and
of the integers `-3` and `50000`, and `Mul` of `-3` by `7`, return values in `[0, 221²)`. -/
theorem ciphertext_range_witness :
    (∃ c, (paillier.PublicKey.mk 221).Add [] = .ok c ∧ 0 ≤ c ∧ c < 221 * 221) ∧
    (∃ c, (paillier.PublicKey.mk 221).Add [-3, 50000] = .ok c ∧ 0 ≤ c ∧ c < 221 * 221) ∧
    (∃ v, (paillier.PublicKey.mk 221).Mul (-3) 7 = some v ∧ 0 ≤ v ∧ v < 221 * 221) :=
  ⟨(ciphertext_range (paillier.PublicKey.mk 221) (by decide)
      (elgamal.PublicKey.mk 3 113 (3 ^ 66 % 113)) (by decide)).2.1 [],
   (ciphertext_range (paillier.PublicKey.mk 221) (by decide)
      (elgamal.PublicKey.mk 3 113 (3 ^ 66 % 113)) (by decide)).2.1 [-3, 50000],
   (ciphertext_range (paillier.PublicKey.mk 221) (by decide)
      (elgamal.PublicKey.mk 3 113 (3 ^ 66 % 113)) (by decide)).2.2.1 (-3) 7 (by decide)⟩

namespace elgamal

/-- The component-wise product modulo `P` of two encryptions decrypts to the bytes of the
product of the two messages modulo `P`. -/
theorem decrypt_product {P : ℕ} (hP : P.Prime) (priv : PrivateKey) (hkey : priv.P = (P : ℤ))
    (hG : ¬ (P : ℤ) ∣ priv.G) (hX : 0 ≤ priv.X)
    (hY : priv.Y = priv.G ^ priv.X.toNat % (P : ℤ))
    (m1 m2 : List (Fin 256)) (k1 k2 : ℤ) (hk1 : 0 ≤ k1) (hk2 : 0 ≤ k2) (rest1 rest2 : List ℤ) :
    ∃ A B, priv.toPublicKey.Encrypt (k1 :: rest1) m1 = .ok A ∧
      priv.toPublicKey.Encrypt (k2 :: rest2) m2 = .ok B ∧
      priv.Decrypt { C1 := (A.C1 * B.C1) % (P : ℤ), C2 := (A.C2 * B.C2) % (P : ℤ) }
        = .ok (big.Bytes ((big.SetBytes m1 * big.SetBytes m2) % (P : ℤ))) := by
  obtain ⟨A, hA, hA1, hA2, -⟩ := decrypt_encrypt hP priv hkey hG hX hY m1 k1 hk1 rest1
  obtain ⟨B, hB, hB1, hB2, -⟩ := decrypt_encrypt hP priv hkey hG hX hY m2 k2 hk2 rest2
  refine ⟨A, B, hA, hB, ?_⟩
  refine decrypt_of_pair_shape hP priv hkey hG hX (k1.toNat + k2.toNat) _ _ ?_ ?_
  · refine (Int.mod_modEq _ _).trans ?_
    rw [pow_add]
    exact hA1.mul hB1
  · refine (Int.mod_modEq _ _).trans ?_
    have e : (priv.G ^ priv.X.toNat) ^ (k1.toNat + k2.toNat)
          * (big.SetBytes m1 * big.SetBytes m2)
        = (priv.G ^ priv.X.toNat) ^ k1.toNat * big.SetBytes m1
          * ((priv.G ^ priv.X.toNat) ^ k2.toNat * big.SetBytes m2) := by ring
    rw [e]
    exact hA2.mul hB2

end elgamal

/-- C18, as the code has it. The multiplicative key generated by `NewLedger` has the modulus
`P = 0x71 = 113` (the string `"71"` is read in base 16), so that for `m1 = 4` and `m2 = 2`
the expected decrypted product is `8 mod 113 = 8`: whatever non-negative exponents the two
encryptions draw, the component-wise product of the ciphertexts modulo `P` decrypts to the
byte `8`. -/
theorem ledger_modulus (rsaPriv : rsa.PrivateKey) (keys : phcc.LedgerKeys)
    (ledger : phcc.Ledger) (hnew : phcc.NewLedger (.ok rsaPriv) = .ok (keys, ledger)) :
    elgamal.HexToBigInt "71" = .ok 113 ∧
    keys.mulKeyPriv.P = 113 ∧ ledger.mulKeyPub.P = 113 ∧
    (4 * 2 : ℤ) % keys.mulKeyPriv.P = 8 ∧
    ∀ (k1 k2 : ℤ) (rest1 rest2 : List ℤ), 0 ≤ k1 → 0 ≤ k2 →
      ∃ A B, ledger.mulKeyPub.Encrypt (k1 :: rest1) [4] = .ok A ∧
        ledger.mulKeyPub.Encrypt (k2 :: rest2) [2] = .ok B ∧
        keys.mulKeyPriv.Decrypt
          { C1 := (A.C1 * B.C1) % ledger.mulKeyPub.P, C2 := (A.C2 * B.C2) % ledger.mulKeyPub.P }
          = .ok [8] := by
  obtain ⟨g, -, hg, hnew'⟩ := phcc.NewLedger_ok rsaPriv
  rw [hnew'] at hnew
  injection hnew with hnew
  injection hnew with hkeys hledger
  subst hkeys hledger
  refine ⟨rfl, rfl, rfl, show (4 * 2 : ℤ) % 113 = 8 by decide, ?_⟩
  intro k1 k2 rest1 rest2 hk1 hk2
  obtain ⟨A, B, hA, hB, hdec⟩ := elgamal.decrypt_product (show Nat.Prime 113 by norm_num)
    { G := g, P := 113, Y := g ^ 66 % 113, X := 66 } rfl hg (show (0 : ℤ) ≤ 66 by decide) rfl
    [4] [2] k1 k2 hk1 hk2 rest1 rest2
  refine ⟨A, B, hA, hB, ?_⟩
  have e : big.SetBytes [4] * big.SetBytes [2] % ((113 : ℕ) : ℤ) = 8 := by decide
  have e8 : big.Bytes 8 = [8] := by
    simp [big.Bytes]
    rfl
  rw [e, e8] at hdec
  exact hdec

/-- Witness of C18 (as the code has it) with the padding key as confidentiality key. -/
theorem ledger_modulus_witness :
    ∃ (keys : phcc.LedgerKeys) (ledger : phcc.Ledger),
      phcc.NewLedger (.ok rsa.paddingKey) = .ok (keys, ledger) ∧
      keys.mulKeyPriv.P = 113 ∧ ledger.mulKeyPub.P = 113 ∧
      (4 * 2 : ℤ) % keys.mulKeyPriv.P = 8 := by
  obtain ⟨g, -, -, hnew⟩ := phcc.NewLedger_ok rsa.paddingKey
  have h := ledger_modulus rsa.paddingKey _ _ hnew
  exact ⟨_, _, hnew, h.2.1, h.2.2.1, h.2.2.2.1⟩

/-- C18 fails as stated: the modulus of the multiplicative key that `NewLedger` generates
is `113`, the value of the base-16 string `"71"`, and not `71`. -/
theorem ledger_modulus_counterexample :
    elgamal.HexToBigInt "71" = .ok 113 ∧
    ∃ (keys : phcc.LedgerKeys) (ledger : phcc.Ledger),
      phcc.NewLedger (.ok rsa.paddingKey) = .ok (keys, ledger) ∧
      keys.mulKeyPriv.P = 113 ∧ ledger.mulKeyPub.P = 113 ∧ ledger.mulKeyPub.P ≠ 71 := by
  obtain ⟨g, -, -, hnew⟩ := phcc.NewLedger_ok rsa.paddingKey
  exact ⟨rfl, _, _, hnew, rfl, rfl, show (113 : ℤ) ≠ 71 by decide⟩

/-- C19. Scalar multiplication is repeated homomorphic addition: for a public key with
`N ≥ 2`, any integer `c` and any natural number `k`, `Mul(c, k)` and `Add` of `k` copies of
`c` return the same value, `c ^ k mod N²`, which is `1` for `k = 0`. -/
theorem mul_is_repeated_add (pub : paillier.PublicKey) (hN : 2 ≤ pub.N) (c : ℤ) (k : ℕ) :
    pub.Mul c (k : ℤ) = some (c ^ k % (pub.N * pub.N)) ∧
    pub.Add (List.replicate k c) = .ok (c ^ k % (pub.N * pub.N)) ∧
    (k = 0 → c ^ k % (pub.N * pub.N) = 1) := by
  have hN0 : pub.N ≠ 0 := by linarith
  have hnn : 0 < pub.N * pub.N := by nlinarith
  have hone : (1 : ℤ) % (pub.N * pub.N) = 1 := Int.emod_eq_of_lt (by decide) (by nlinarith)
  refine ⟨?_, ?_, ?_⟩
  · have h := big.Exp_of_nonneg (x := c) (Int.natCast_nonneg k) (ne_of_gt hnn)
    rw [Int.toNat_ofNat, abs_of_pos hnn] at h
    exact h
  · cases k with
    | zero =>
      rw [pow_zero, hone]
      rfl
    | succ k =>
      rw [List.replicate_succ]
      have h := paillier.add_fold_value pub hN0 (List.replicate k c) c paillier.ONE
      rw [← List.replicate_succ, List.prod_replicate, paillier.ONE, one_mul] at h
      exact h
  · intro hk
    rw [hk, pow_zero, hone]

/-- Witness of C19 at `N = 221`, `c = 10278`, `k = 3`. -/
theorem mul_is_repeated_add_witness :
    (paillier.PublicKey.mk 221).Mul 10278 3 = some (10278 ^ 3 % (221 * 221)) ∧
    (paillier.PublicKey.mk 221).Add [10278, 10278, 10278]
      = .ok (10278 ^ 3 % (221 * 221)) :=
  ⟨(mul_is_repeated_add (paillier.PublicKey.mk 221) (by decide) 10278 3).1,
   (mul_is_repeated_add (paillier.PublicKey.mk 221) (by decide) 10278 3).2.1⟩

namespace paillier.cells

/-- What `minusOne(x)` leaves behind when `x` is a cell in use: `x` is returned and holds one
less, one cell has been allocated, and the other cells in use are untouched. -/
theorem minusOne_effect (s : Store) (x : ℕ) (hx : x < s.next) :
    (minusOne s x).2 = x ∧ (minusOne s x).1.next = s.next + 1 ∧
    (minusOne s x).1.cell x = s.cell x - 1 ∧
    ∀ a, a < s.next → a ≠ x → (minusOne s x).1.cell a = s.cell a := by
  have hne : x ≠ s.next := by omega
  refine ⟨rfl, rfl, ?_, ?_⟩
  · simp only [minusOne, NEG_ONE, Store.alloc, Store.set, Function.update_same,
      Function.update_noteq hne]
    ring
  · intro a ha hax
    have hane : a ≠ s.next := by omega
    simp only [minusOne, NEG_ONE, Store.alloc, Store.set, Function.update_noteq hax,
      Function.update_noteq hane]

/-- What `computePhi(p, q)` leaves behind on two distinct cells in use. -/
theorem computePhi_effect (s : Store) (p q : ℕ) (hpq : p ≠ q) (hp : p < s.next)
    (hq : q < s.next) :
    (computePhi s p q).2 = q ∧ (computePhi s p q).1.next = s.next + 2 ∧
    (computePhi s p q).1.cell p = s.cell p - 1 ∧
    (computePhi s p q).1.cell q = (s.cell p - 1) * (s.cell q - 1) ∧
    ∀ a, a < s.next → a ≠ p → a ≠ q → (computePhi s p q).1.cell a = s.cell a := by
  obtain ⟨-, hn1, hp1, hf1⟩ := minusOne_effect s p hp
  have hq' : q < (minusOne s p).1.next := by omega
  have hp' : p < (minusOne s p).1.next := by omega
  obtain ⟨-, hn2, hq2, hf2⟩ := minusOne_effect (minusOne s p).1 q hq'
  have hpc : (minusOne (minusOne s p).1 q).1.cell p = s.cell p - 1 := by
    rw [hf2 p hp' hpq, hp1]
  have hqc : (minusOne (minusOne s p).1 q).1.cell q = s.cell q - 1 := by
    rw [hq2, hf1 q hq hpq.symm]
  refine ⟨rfl, ?_, ?_, ?_, ?_⟩
  · show (minusOne (minusOne s p).1 q).1.next = s.next + 2
    omega
  · show Function.update (minusOne (minusOne s p).1 q).1.cell q _ p = _
    rw [Function.update_noteq hpq, hpc]
  · show Function.update (minusOne (minusOne s p).1 q).1.cell q _ q = _
    rw [Function.update_same]
    show (minusOne (minusOne s p).1 q).1.cell p * (minusOne (minusOne s p).1 q).1.cell q = _
    rw [hpc, hqc]
  · intro a ha hap haq
    show Function.update (minusOne (minusOne s p).1 q).1.cell q _ a = _
    rw [Function.update_noteq haq, hf2 a (by omega) haq, hf1 a ha hap]

/-- When both arguments of `computePhi` are one and the same cell, that cell is decremented
twice and then squared. -/
theorem computePhi_same_cell (s : Store) (x : ℕ) (hx : x < s.next) :
    (computePhi s x x).1.cell x = (s.cell x - 2) * (s.cell x - 2) := by
  obtain ⟨-, hn1, h1, -⟩ := minusOne_effect s x hx
  obtain ⟨-, -, h2, -⟩ := minusOne_effect (minusOne s x).1 x (by omega)
  show Function.update (minusOne (minusOne s x).1 x).1.cell x _ x = _
  rw [Function.update_same]
  show (minusOne (minusOne s x).1 x).1.cell x * (minusOne (minusOne s x).1 x).1.cell x = _
  rw [h2, h1]
  ring

end paillier.cells

/-- C20. Key generation overwrites its arguments: when `CreatePrivateKey(p, q)` runs on two
distinct cells in use, holding `p0` and `q0`, then afterwards the cell `p` holds `p0 - 1`, the
cell `q` holds `(p0 - 1) * (q0 - 1)` and is the cell the key's `Lambda` points at, and the
key's `N` points at a new cell holding `p0 * q0`, the product taken before the arguments are
overwritten; every other cell in use keeps its content, and the values behind the key are
those of the value-level `CreatePrivateKey(p0, q0)`. -/
theorem key_generation_overwrites (s : paillier.cells.Store) (p q : ℕ) (hpq : p ≠ q)
    (hp : p < s.next) (hq : q < s.next) :
    ((paillier.cells.CreatePrivateKey s p q).1.cell p = s.cell p - 1) ∧
    ((paillier.cells.CreatePrivateKey s p q).1.cell q = (s.cell p - 1) * (s.cell q - 1)) ∧
    ((paillier.cells.CreatePrivateKey s p q).2.Lambda = q) ∧
    ((paillier.cells.CreatePrivateKey s p q).2.N = s.next) ∧
    ((paillier.cells.CreatePrivateKey s p q).1.cell (paillier.cells.CreatePrivateKey s p q).2.N
      = s.cell p * s.cell q) ∧
    (∀ a, a < s.next → a ≠ p → a ≠ q →
      (paillier.cells.CreatePrivateKey s p q).1.cell a = s.cell a) ∧
    ((paillier.cells.CreatePrivateKey s p q).1.cell (paillier.cells.CreatePrivateKey s p q).2.N
      = (paillier.CreatePrivateKey (s.cell p) (s.cell q)).N) ∧
    ((paillier.cells.CreatePrivateKey s p q).1.cell
        (paillier.cells.CreatePrivateKey s p q).2.Lambda
      = (paillier.CreatePrivateKey (s.cell p) (s.cell q)).Lambda) := by
  have hp1 : p ≠ s.next := by omega
  have hq1 : q ≠ s.next := by omega
  -- the store in which `computePhi` starts: `n` is allocated and filled
  obtain ⟨s2, hs2def⟩ : ∃ s2, s2 = (s.alloc 0).1.set (s.alloc 0).2
      ((s.alloc 0).1.cell p * (s.alloc 0).1.cell q) := ⟨_, rfl⟩
  have hcreate : paillier.cells.CreatePrivateKey s p q
      = ((paillier.cells.computePhi s2 p q).1,
         { N := s.next, Lambda := (paillier.cells.computePhi s2 p q).2 }) := by
    rw [hs2def]
    rfl
  have hnext : s2.next = s.next + 1 := by
    rw [hs2def]
    rfl
  have hold : ∀ a, a < s.next → s2.cell a = s.cell a := by
    intro a ha
    have hane : a ≠ s.next := by omega
    rw [hs2def]
    simp only [paillier.cells.Store.alloc, paillier.cells.Store.set,
      Function.update_noteq hane]
  have hnew : s2.cell s.next = s.cell p * s.cell q := by
    rw [hs2def]
    simp only [paillier.cells.Store.alloc, paillier.cells.Store.set, Function.update_same,
      Function.update_noteq hp1, Function.update_noteq hq1]
  obtain ⟨hret, -, hcp, hcq, hframe⟩ := paillier.cells.computePhi_effect s2 p q hpq
    (by omega) (by omega)
  rw [hcreate]
  simp only
  have hN : (paillier.cells.computePhi s2 p q).1.cell s.next = s.cell p * s.cell q := by
    rw [hframe s.next (by omega) hp1.symm hq1.symm, hnew]
  have hQ : (paillier.cells.computePhi s2 p q).1.cell q = (s.cell p - 1) * (s.cell q - 1) := by
    rw [hcq, hold p hp, hold q hq]
  refine ⟨?_, hQ, hret, trivial, hN, ?_, hN, ?_⟩
  · rw [hcp, hold p hp]
  · intro a ha hap haq
    rw [hframe a (by omega) hap haq, hold a ha]
  · rw [hret, hQ]
    simp only [paillier.CreatePrivateKey, paillier.computePhi, paillier.minusOne,
      paillier.NEG_ONE]
    ring

/-- Witness of C20 on a store whose cells `0` and `1` hold `463` and `631`, the values of
`TestCreatePrivateKey`: afterwards cell `0` holds `462`, cell `1` holds `291060` and is the
key's `Lambda`, and the key's `N` is the new cell `2` holding `292153`. -/
theorem key_generation_overwrites_witness :
    (paillier.cells.CreatePrivateKey
      { cell := fun a => if a = 0 then 463 else 631, next := 2 } 0 1).1.cell 0 = 462 ∧
    (paillier.cells.CreatePrivateKey
      { cell := fun a => if a = 0 then 463 else 631, next := 2 } 0 1).1.cell 1 = 291060 ∧
    (paillier.cells.CreatePrivateKey
      { cell := fun a => if a = 0 then 463 else 631, next := 2 } 0 1).2.Lambda = 1 ∧
    (paillier.cells.CreatePrivateKey
      { cell := fun a => if a = 0 then 463 else 631, next := 2 } 0 1).2.N = 2 ∧
    (paillier.cells.CreatePrivateKey
      { cell := fun a => if a = 0 then 463 else 631, next := 2 } 0 1).1.cell 2 = 292153 :=
  have h := key_generation_overwrites
    { cell := fun a => if a = 0 then 463 else 631, next := 2 } 0 1 (by decide) (by decide)
    (by decide)
  ⟨h.1, h.2.1, h.2.2.1, h.2.2.2.1, h.2.2.2.2.1⟩
